import Mathlib

/-
Verification of the CppProperties hierarchical property-container library.

The development shallowly embeds the container data structures and
operations of the library and proves the specified properties about them.
Three embeddings are used, matching the source files the properties talk
about:

* namespace `PC`   — `include/cppproperties/PropertyContainer.h`, the
  `ps::PropertyContainerBase` class (ownership, visibility index,
  cascading, dirty tracking, signal bookkeeping, batched emission).
* namespace `SIG`  — `include/cppproperties/Signal.h`, the
  `ps::Signal` / `ps::Signal_PMF` classes (slot registration identity).
* namespace `PS4`  — the later revision of `PropertyContainer.h`
  (PropertyData-based, snapshot-copying emit) together with
  `ConvertingProxyProperty` from `ProxyProperty.h`.

Modelling conventions, shared by all embeddings:
* Containers are nodes of a finitely-branching tree; a node is identified
  by its absolute `Path` (list of child indices from the root).  Paths
  play the role of the C++ `PropertyContainerBase*` pointers; they are
  stable identities because children are only ever appended.
* Property descriptors are identified by a natural number; the default
  value carried by a `PropertyDescriptor` is passed explicitly to the
  operations that read it, exactly where the C++ reads
  `pd.getDefaultValue()`.  Property values are integers in `PC`
  (the container code is agnostic in the value type).
* `std::unordered_map` is modelled as an association list with
  insert-or-assign semantics; iteration order is the insertion order
  (the C++ iteration order of an `unordered_map` is unspecified, so any
  fixed order is a sound refinement for the properties proved here).
* Observer callbacks are opaque host code; in `PC` a slot is modelled by
  its registration key (the `std::type_index` of the callable) together
  with an opaque observer tag that is appended to an emission log when
  the slot is invoked.
-/

namespace CppProps

/-- Absolute path of a container node: the list of child indices leading
from the root container to the node. -/
abbrev Path := List Nat

/-- Association-list lookup, modelling `MapT::find`. -/
def lookupA {α : Type} : List (Nat × α) → Nat → Option α
  | [], _ => none
  | (k, a) :: r, k0 => if k = k0 then some a else lookupA r k0

/-- Association-list insert-or-assign, modelling `MapT::operator[]`
followed by an assignment: an existing key is updated in place, a new key
is appended at the end. -/
def insertA {α : Type} : List (Nat × α) → Nat → α → List (Nat × α)
  | [], k0, a0 => [(k0, a0)]
  | (k, a) :: r, k0, a0 =>
    if k = k0 then (k0, a0) :: r else (k, a) :: insertA r k0 a0

/-- Association-list erase, modelling `MapT::erase`.  The bindings of
the key are removed; a C++ map holds at most one. -/
def eraseA {α : Type} : List (Nat × α) → Nat → List (Nat × α)
  | [], _ => []
  | (k, a) :: r, k0 => if k = k0 then eraseA r k0 else (k, a) :: eraseA r k0

/-- Map `try_emplace`: insert the binding only when the key is absent
(an existing binding is kept unchanged). -/
def tryEmplace {α : Type} (m : List (Nat × α)) (k : Nat) (a : α) : List (Nat × α) :=
  match lookupA m k with
  | some _ => m
  | none => m ++ [(k, a)]

namespace PC

/-- Record of an owned property: the entry of `m_propertyData` in
`ps::PropertyContainerBase`.  `prop` is the stored value of the owned
`Property<T>` object and `conn` is its `m_connectedSignals` vector; a
connected signal is identified by the container that owns it together
with the descriptor (`m_toSignal` is keyed per container and
descriptor). -/
structure Rec where
  prop : Int
  conn : List (Path × Nat)
deriving Repr, DecidableEq

/-- Slot map of one `Signal` object: keys model the `std::type_index`
under which `Signal::connect` registers a callable (`try_emplace`
semantics), values are opaque observer tags. -/
abbrev Slots := List (Nat × Nat)

/-- Per-container state of `ps::PropertyContainerBase`: `recs` is
`m_propertyData` (presence of an entry is exactly
`ownsPropertyDataInternal`), `vis` is `m_toContainer` (the visibility
index), `sigs` is `m_toSignal`, `dirtyL` is `m_changedProperties`
(holding the descriptors of this container's dirty records; a record is
dirty, `m_propertyChanged`, precisely when its descriptor is in the
list), and `removedL` is `m_removedProperies` (pending
reverted-to-default notifications: the default value together with the
signals that must be notified). -/
structure Nd where
  recs : List (Nat × Rec)
  vis : List (Nat × Path)
  sigs : List (Nat × Slots)
  dirtyL : List Nat
  removedL : List (Int × List (Path × Nat))
deriving Repr, DecidableEq

instance : Inhabited Nd := ⟨⟨[], [], [], [], []⟩⟩

mutual
/-- Container tree: a node state together with the owned children
(`m_children`); the parent pointer `m_parent` is implicit in the path
structure (the parent of a node at path `p ++ [i]` is the node at
`p`). -/
inductive Tree where
  | node : Nd → Forest → Tree
/-- List of child containers. -/
inductive Forest where
  | nil : Forest
  | cons : Tree → Forest → Forest
end

def Tree.nd : Tree → Nd
  | .node n _ => n

def Tree.kids : Tree → Forest
  | .node _ f => f

def Forest.get? : Forest → Nat → Option Tree
  | .nil, _ => none
  | .cons t _, 0 => some t
  | .cons _ f, n + 1 => Forest.get? f n

def Forest.len : Forest → Nat
  | .nil => 0
  | .cons _ f => f.len + 1

def Forest.push : Forest → Tree → Forest
  | .nil, t => .cons t .nil
  | .cons k f, t => .cons k (f.push t)

/-- Subtree of `t` rooted at path `p` (follows child pointers). -/
def Tree.sub? : Tree → Path → Option Tree
  | t, [] => some t
  | t, i :: p =>
    match t.kids.get? i with
    | some k => k.sub? p
    | none => none

/-- Node state at path `p`; the default (empty) state for invalid
paths. -/
def Tree.ndAt (t : Tree) (p : Path) : Nd :=
  match t.sub? p with
  | some s => s.nd
  | none => default

/-- Path validity: `p` addresses a node of `t`. -/
def Tree.validP (t : Tree) (p : Path) : Bool := (t.sub? p).isSome

/-- Applies `f` to the subtree rooted at `p` (identity on invalid
paths). -/
def Tree.updAt : Tree → Path → (Tree → Tree) → Tree
  | t, [], f => f t
  | .node nd kids, i :: p, f => .node nd (updKids kids i p f)
where
  updKids : Forest → Nat → Path → (Tree → Tree) → Forest
  | .nil, _, _, _ => .nil
  | .cons k g, 0, p, f => .cons (k.updAt p f) g
  | .cons k g, n + 1, p, f => .cons k (updKids g n p f)

/-- Applies a node-state edit at path `p`, leaving the children alone. -/
def Tree.updNd (t : Tree) (p : Path) (f : Nd → Nd) : Tree :=
  t.updAt p (fun s => .node (f s.nd) s.kids)

/-- `ownsPropertyDataInternal`: the container has an `m_propertyData`
entry for the descriptor. -/
def ownsNd (n : Nd) (d : Nat) : Bool := (lookupA n.recs d).isSome

def Tree.owns (t : Tree) (p : Path) (d : Nat) : Bool := ownsNd (t.ndAt p) d

/-- Visibility-index entry (`m_toContainer.find`) of the node at `p` for
descriptor `d`. -/
def Tree.visAt (t : Tree) (p : Path) (d : Nat) : Option Path :=
  lookupA (t.ndAt p).vis d

/-- Store (`m_toContainer[&pd] = container`) or erase
(`m_toContainer.erase(&pd)`) one visibility entry. -/
def setVisNd (n : Nd) (d : Nat) (c : Option Path) : Nd :=
  match c with
  | some q => { n with vis := insertA n.vis d q }
  | none => { n with vis := eraseA n.vis d }

mutual
/-- `setParentContainerForProperty(pd, container)`: store (or erase, for
a null `container`) the visibility entry at this node, then recurse into
every child that does not itself own property data for `pd`. -/
def spcfp (d : Nat) (c : Option Path) : Tree → Tree
  | .node nd kids => .node (setVisNd nd d c) (spcfpF d c kids)
def spcfpF (d : Nat) (c : Option Path) : Forest → Forest
  | .nil => .nil
  | .cons k f =>
    .cons (if ownsNd k.nd d then k else spcfp d c k) (spcfpF d c f)
end

/-- Every node strictly below the root of `s` along the relative path
`rel` (endpoint included) is free of own property data for `d` — and
the path is valid; this is exactly the region
`setParentContainerForProperty` descends into. -/
def freeB (d : Nat) : Tree → Path → Bool
  | _, [] => true
  | t, i :: p =>
    match t.kids.get? i with
    | some k => !ownsNd k.nd d && freeB d k p
    | none => false

mutual
/-- `getAllSignals`: collect this container's own `m_toSignal` entry for
`pd` (if present), then the entries of all children that do not own
property data for `pd`, in child order.  `abs` is the absolute path of
the subtree being traversed. -/
def getAllSignals (d : Nat) (abs : Path) : Tree → List (Path × Nat)
  | .node nd kids =>
    (if (lookupA nd.sigs d).isSome then [(abs, d)] else []) ++
      getAllSignalsF d abs 0 kids
def getAllSignalsF (d : Nat) (abs : Path) (i : Nat) : Forest → List (Path × Nat)
  | .nil => []
  | .cons k f =>
    (if ownsNd k.nd d then [] else getAllSignals d (abs ++ [i]) k) ++
      getAllSignalsF d abs (i + 1) f
end

/-- `getOrConstructPropertyInternal`: ensure an owned record exists; a
freshly constructed `Property<T>` holds the value-initialised `T()`,
modelled by `0`. -/
def getOrConstructNd (n : Nd) (d : Nat) : Nd :=
  match lookupA n.recs d with
  | some _ => n
  | none => { n with recs := insertA n.recs d ⟨0, []⟩ }

def Tree.getOrConstructAt (t : Tree) (p : Path) (d : Nat) : Tree :=
  t.updNd p (getOrConstructNd · d)

/-- `updateAllSignals`: get-or-construct the record, clear its
`m_connectedSignals` and refill it from `getAllSignals`. -/
def Tree.updateAllSignals (t : Tree) (p : Path) (d : Nat) : Tree :=
  let t1 := t.getOrConstructAt p d
  match t1.sub? p with
  | some s =>
    t1.updNd p (fun n =>
      match lookupA n.recs d with
      | some r => { n with recs := insertA n.recs d { r with conn := getAllSignals d p s } }
      | none => n)
  | none => t1

/-- `getOwningPropertyContainer`: this container if it owns the
property data, otherwise its `m_toContainer` entry. -/
def Tree.getOwning (t : Tree) (p : Path) (d : Nat) : Option Path :=
  if t.owns p d then some p else t.visAt p d

/-- `setDirty`: mark the record changed and append it to
`m_changedProperties` unless it is already marked. -/
def setDirtyNd (n : Nd) (d : Nat) : Nd :=
  if d ∈ n.dirtyL then n else { n with dirtyL := n.dirtyL ++ [d] }

/-- `touchPropertyInternal`.  In the C++ the record is accessed through
`m_propertyData[pd]` and dereferenced, which is only defined when the
record exists; the function is a no-op here otherwise. -/
def Tree.touchPropertyInternal (t : Tree) (p : Path) (d : Nat) : Tree :=
  match lookupA (t.ndAt p).recs d with
  | some _ => t.updNd p (setDirtyNd · d)
  | none => t

/-- `changePropertyInternal` for a plain value: get-or-construct the
record, then `Property<T>::set`, which stores the value and marks the
record dirty only when the new value differs from the stored one. -/
def Tree.changePropertyInternal (t : Tree) (p : Path) (d : Nat) (v : Int) : Tree :=
  let t1 := t.getOrConstructAt p d
  match lookupA (t1.ndAt p).recs d with
  | some r =>
    if v ≠ r.prop then
      (t1.updNd p (fun n => { n with recs := insertA n.recs d { r with prop := v } })).updNd
        p (setDirtyNd · d)
    else t1
  | none => t1

/-- Parent path (`m_parent`); the root has no parent. -/
def parentOf : Path → Option Path
  | [] => none
  | p => some p.dropLast

/-- The middle step of `setProperty`: find the container previously
owning the property through the parent (`m_parent ?
m_parent->getOwningPropertyContainer(pd) : nullptr`) and refresh its
connected signals. -/
def Tree.parentSignalRefresh (t : Tree) (p : Path) (d : Nat) : Tree :=
  match parentOf p with
  | none => t
  | some pp =>
    match t.getOwning pp d with
    | some q => t.updateAllSignals q d
    | none => t

/-- `setProperty`: make this node the owner — update the visibility
index of the whole uncovered subtree, refresh the connected signals of
the new record, refresh the connected signals at the previous owner
found through the parent, then store the value. -/
def Tree.setProperty (t : Tree) (p : Path) (d : Nat) (v : Int) : Tree :=
  (((t.updAt p (spcfp d (some p))).updateAllSignals p d).parentSignalRefresh p d).changePropertyInternal
    p d v

/-- `changeProperty`: mutate the value at the container the visibility
index resolves; nothing happens when the entry is absent. -/
def Tree.changeProperty (t : Tree) (p : Path) (d : Nat) (v : Int) : Tree :=
  match t.visAt p d with
  | some q => t.changePropertyInternal q d v
  | none => t

/-- `touchProperty`. -/
def Tree.touchProperty (t : Tree) (p : Path) (d : Nat) : Tree :=
  match t.visAt p d with
  | some q => t.touchPropertyInternal q d
  | none => t

/-- `hasProperty`: the visibility index has an entry. -/
def Tree.hasProperty (t : Tree) (p : Path) (d : Nat) : Bool :=
  (t.visAt p d).isSome

/-- `getProperty`: default value when no entry is in the visibility
index, otherwise the value stored at the owning container (default again
when the owning container holds no record — the null-pointer guard of
`getProperty`). -/
def Tree.getProperty (t : Tree) (p : Path) (d : Nat) (dflt : Int) : Int :=
  match t.visAt p d with
  | none => dflt
  | some q =>
    match lookupA (t.ndAt q).recs d with
    | some r => r.prop
    | none => dflt

/-- Stored value of the record owned by the container at `p` (`none`
when it owns no record for `d`). -/
def Tree.valueAt (t : Tree) (p : Path) (d : Nat) : Option Int :=
  (lookupA (t.ndAt p).recs d).map (·.prop)

/-- `addSignal`: get-or-construct the record and append the signal
reference unless it is already connected. -/
def Tree.addSignal (t : Tree) (q : Path) (d : Nat) (s : Path × Nat) : Tree :=
  let t1 := t.getOrConstructAt q d
  t1.updNd q (fun n =>
    match lookupA n.recs d with
    | some r =>
      if s ∈ r.conn then n
      else { n with recs := insertA n.recs d { r with conn := r.conn ++ [s] } }
    | none => n)

/-- `addSignals`: append a batch of signal references to the record.  In
the C++ the record is accessed through `m_propertyData[pd]` and
dereferenced, which is only defined when the record exists. -/
def Tree.addSignals (t : Tree) (q : Path) (d : Nat) (ss : List (Path × Nat)) : Tree :=
  t.updNd q (fun n =>
    match lookupA n.recs d with
    | some r => { n with recs := insertA n.recs d { r with conn := r.conn ++ ss } }
    | none => n)

/-- `connect(pd, func)`: create this container's `m_toSignal` entry if
needed, link the signal into the current owner's connected list found
through the visibility index, then register the slot under its
`std::type_index` key. -/
def Tree.connect (t : Tree) (p : Path) (d : Nat) (key tag : Nat) : Tree :=
  let t1 := t.updNd p (fun n =>
    match lookupA n.sigs d with
    | some _ => n
    | none => { n with sigs := insertA n.sigs d [] })
  let t2 :=
    match t1.visAt p d with
    | some q => t1.addSignal q d (p, d)
    | none => t1
  t2.updNd p (fun n =>
    { n with sigs := insertA n.sigs d (tryEmplace ((lookupA n.sigs d).getD []) key tag) })

/-- `disconnect(pd)`: clear all slots of this container's signal for the
descriptor (creating the empty signal if absent, per `operator[]`). -/
def Tree.disconnectAll (t : Tree) (p : Path) (d : Nat) : Tree :=
  t.updNd p (fun n => { n with sigs := insertA n.sigs d [] })

/-- `removePropertyInternal`: capture the record's connected signals and
value, re-parent the visibility of the uncovered subtree to the nearest
remaining owner found through the parent, migrate the connected signals
there (touching the new owner when the effective value changes), or — if
no owner remains but signals are attached — queue a reverted-to-default
notification; finally erase the local record. -/
def Tree.removePropertyInternal (t : Tree) (p : Path) (d : Nat) (dflt : Int) : Tree :=
  match lookupA (t.ndAt p).recs d with
  | none => t
  | some r =>
    let oldSignals := r.conn
    let oldValue := r.prop
    let newC :=
      match parentOf p with
      | none => none
      | some pp => t.getOwning pp d
    let t1 := t.updAt p (spcfp d newC)
    let t2 :=
      match newC with
      | some nc =>
        let t2a := t1.addSignals nc d oldSignals
        match lookupA (t2a.ndAt nc).recs d with
        | some nr => if nr.prop ≠ oldValue then t2a.touchPropertyInternal nc d else t2a
        | none => t2a
      | none =>
        if oldSignals ≠ [] then
          t1.updNd p (fun n => { n with removedL := n.removedL ++ [(dflt, oldSignals)] })
        else t1
    t2.updNd p (fun n => { n with recs := eraseA n.recs d })

/-- `removeProperty`: dispatch through the visibility index to the
container the entry points at; nothing happens when the entry is
absent. -/
def Tree.removeProperty (t : Tree) (p : Path) (d : Nat) (dflt : Int) : Tree :=
  match t.visAt p d with
  | some q => t.removePropertyInternal q d dflt
  | none => t

mutual
/-- Paths of all nodes of the subtree in the order `emit` visits them:
the node itself, then the children subtrees left to right. -/
def preorder (abs : Path) : Tree → List Path
  | .node _ kids => abs :: preorderF abs 0 kids
def preorderF (abs : Path) (i : Nat) : Forest → List Path
  | .nil => []
  | .cons k f => preorder (abs ++ [i]) k ++ preorderF abs (i + 1) f
end

/-- Node-state part of rebasing: every stored container reference gets
the new absolute prefix. -/
def rebaseNd (pre : Path) (nd : Nd) : Nd :=
  { nd with
    vis := nd.vis.map (fun e => (e.1, pre ++ e.2)),
    recs := nd.recs.map (fun e =>
      (e.1, { e.2 with conn := e.2.conn.map (fun s => (pre ++ s.1, s.2)) })),
    removedL := nd.removedL.map (fun e =>
      (e.1, e.2.map (fun s => (pre ++ s.1, s.2)))) }

mutual
/-- Rebasing a standalone tree under a new absolute prefix: all stored
container references (visibility entries, connected-signal references)
keep denoting the same nodes, exactly as the C++ pointers do when a
subtree is adopted by `addChildContainer`. -/
def rebase (pre : Path) : Tree → Tree
  | .node nd kids => .node (rebaseNd pre nd) (rebaseF pre kids)
def rebaseF (pre : Path) : Forest → Forest
  | .nil => .nil
  | .cons k f => .cons (rebase pre k) (rebaseF pre f)
end

/-- One propagation loop of `addChildContainer`: for each listed
descriptor-target pair, `setParentContainerForProperty` on the adopted
subtree unless its root owns the descriptor. -/
def applyUps (L : List (Nat × Path)) (s : Tree) : Tree :=
  L.foldl (fun acc e => if ownsNd acc.nd e.1 then acc else spcfp e.1 (some e.2) acc) s

/-- Last propagation target a loop list carries for a descriptor. -/
def lastTarget (L : List (Nat × Path)) (e : Nat) : Option Path :=
  ((L.filter (fun kv => kv.1 = e)).getLast?).map (·.2)

/-- The adopted subtree as it stands after the two propagation loops of
`addChildContainer` at host `host` (about to become child number
`host.kids.len` of the node at `p`). -/
def attachSub (p : Path) (host : Tree) (s : Tree) : Tree :=
  applyUps host.nd.vis
    (applyUps (host.nd.recs.map (fun e => (e.1, p)))
      (rebase (p ++ [host.kids.len]) s))

/-- `addChildContainer`: adopt `s` as a new child of the node at `p`.
The adopted subtree first receives, for every descriptor the host owns
(`m_propertyData` loop), a visibility entry pointing at the host, unless
the subtree root already owns it; then, for every descriptor in the
host's visibility index (`m_toContainer` loop), an entry pointing at the
indexed container (same proviso); finally the subtree is appended to
`m_children`. -/
def Tree.addChild (t : Tree) (p : Path) (s : Tree) : Tree :=
  t.updAt p (fun host => .node host.nd (host.kids.push (attachSub p host s)))

/-- Slot map of the signal a connected-signal reference denotes. -/
def slotsAt (t : Tree) (s : Path × Nat) : Slots :=
  (lookupA (t.ndAt s.1).sigs s.2).getD []

/-- Connected signals of the record at `p` for `d`. -/
def connOf (t : Tree) (p : Path) (d : Nat) : List (Path × Nat) :=
  match lookupA (t.ndAt p).recs d with
  | some r => r.conn
  | none => []

/-- Keep the first slot registered under each key: the slot-collection
map of `emitEliminateDuplicates`, whose `emplace` keeps the existing
entry. -/
def dedupKeys (acc : Slots) : Slots → Slots
  | [] => acc
  | (k, tag) :: r =>
    match lookupA acc k with
    | some _ => dedupKeys acc r
    | none => dedupKeys (acc ++ [(k, tag)]) r

/-- Observer invocations of one container's `emit` step in deduplicating
mode: `emitEliminateDuplicates` collects the slots of all signals
connected to dirty records into a map keyed by slot identity (each key
firing once for the pass), after which the pending reverted-to-default
notifications fire all their slots without deduplication. -/
def nodePassLog (t : Tree) (p : Path) : List Nat :=
  let nd := t.ndAt p
  let pairs := nd.dirtyL.flatMap (fun d => (connOf t p d).flatMap (fun s => slotsAt t s))
  (dedupKeys [] pairs).map (·.2) ++
    nd.removedL.flatMap (fun e => e.2.flatMap (fun s => (slotsAt t s).map (·.2)))

/-- Observer invocations of a whole `emit(true)` call started at the
root: every node runs its pass in preorder.  Observer callbacks are
opaque host code that does not mutate the containers, so the log of the
whole call reads every pass against the tree at call time. -/
def Tree.emitLog (t : Tree) : List Nat :=
  (preorder [] t).flatMap (nodePassLog t)

mutual
/-- Container state after `emit`: every visited node has reset the dirty
marks, cleared `m_changedProperties` and discharged
`m_removedProperies`. -/
def clearT : Tree → Tree
  | .node nd kids => .node { nd with dirtyL := [], removedL := [] } (clearF kids)
def clearF : Forest → Forest
  | .nil => .nil
  | .cons k f => .cons (clearT k) (clearF f)
end

/-- Full effect of `emit(true)` from the root: the invocation log and
the cleaned tree. -/
def Tree.emit (t : Tree) : Tree × List Nat := (clearT t, t.emitLog)

/-- Nearest ancestor of the node at `p` (the node itself included) that
owns property data for `d`: `p` itself when it owns, otherwise the
nearest owner at or above the parent; `none` when no inclusive ancestor
owns. -/
def Tree.nearestOwner (t : Tree) (p : Path) (d : Nat) : Option Path :=
  if t.owns p d then some p
  else
    match p with
    | [] => none
    | i :: r => t.nearestOwner ((i :: r).dropLast) d
termination_by p.length
decreasing_by simp [List.length_dropLast]

/-- Nearest owner strictly above a node: what
`m_parent->getOwningPropertyContainer` resolves (under the invariant),
`none` at the root. -/
def nearestAbove (t : Tree) (p : Path) (d : Nat) : Option Path :=
  match p with
  | [] => none
  | i :: r => t.nearestOwner ((i :: r).dropLast) d

/-- Visibility-index invariant: at every container and for every
descriptor, the index entry is the nearest inclusive-ancestor owner, and
absent exactly when no inclusive ancestor owns the descriptor. -/
def Inv (t : Tree) : Prop :=
  ∀ p d, t.validP p → t.visAt p d = t.nearestOwner p d

/-- Node edits that touch only signal bookkeeping: the visibility index,
dirty list, removed queue, ownership and stored values are all
unchanged. -/
def SigOnly (g : Nd → Nd) : Prop :=
  ∀ n, (g n).vis = n.vis ∧ (g n).dirtyL = n.dirtyL ∧ (g n).removedL = n.removedL ∧
    (∀ e, ownsNd (g n) e = ownsNd n e) ∧
    (∀ e, (lookupA (g n).recs e).map (·.prop) = (lookupA n.recs e).map (·.prop))

/-- A single standalone container. -/
def single : Tree := .node default .nil

/-- A root container with one (empty) child. -/
def chain2 : Tree := .node default (.cons (.node default .nil) .nil)

/-- A root container R with one child A which has one child A1. -/
def chain3 : Tree :=
  .node default (.cons (.node default (.cons (.node default .nil) .nil)) .nil)

end PC

namespace SIG

/-- State of a `ps::Signal` / `ps::Signal_PMF` object: the slot storage
`m_slots` (keys are `size_t` registration identities, values are opaque
observer identities) and the running counter `m_index` used to key
functor registrations. -/
structure Signal where
  nextIdx : Nat
  slots : List (Nat × Nat)
deriving Repr, DecidableEq

/-- Freshly constructed signal. -/
def Signal.empty : Signal := ⟨0, []⟩

/-- `Signal::connect(FuncT)`: `m_slots.try_emplace(m_index, ...)` and
return `m_index++` — every call registers under a fresh token, so
separate functor/closure registrations are never deduplicated. -/
def Signal.connectFunc (s : Signal) (tag : Nat) : Signal :=
  ⟨s.nextIdx + 1, tryEmplace s.slots s.nextIdx tag⟩

/-- `Signal_PMF::connectPMF`: the key is the hash of the
`std::type_index` of the pointer-to-member type, so the identical bound
member-function identity always maps to the same key, and `try_emplace`
keeps the first registration. -/
def Signal.connectPMF (s : Signal) (key tag : Nat) : Signal :=
  ⟨s.nextIdx, tryEmplace s.slots key tag⟩

/-- `Signal::emit`: invoke every slot. -/
def Signal.emitAll (s : Signal) : List Nat := s.slots.map (·.2)

/-- `Signal_PMF::emitUnique`: invoke each slot whose key is not in the
already-invoked set, adding the key to the set; returns the invocations
and the grown set. -/
def emitUniqueGo : List (Nat × Nat) → List Nat → List Nat × List Nat
  | [], inv => ([], inv)
  | (k, tag) :: r, inv =>
    if k ∈ inv then emitUniqueGo r inv
    else
      let rest := emitUniqueGo r (inv ++ [k])
      (tag :: rest.1, rest.2)

def Signal.emitUnique (s : Signal) (inv : List Nat) : List Nat × List Nat :=
  emitUniqueGo s.slots inv

end SIG

namespace PS4

/-
Embedding of the later revision of `PropertyContainer.h` (the
`PropertyData`-based `ps::PropertyContainerBase` whose
`emitEliminateDuplicates` snapshots and clears `m_changedProperties`
before invoking any slot) together with `ConvertingProxyProperty`.
-/

/-- Typed property values as used by the computed-property scenarios:
integers and strings. -/
inductive Val where
  | i : Int → Val
  | s : String → Val
deriving Repr, DecidableEq

/-- Slot actions.  `log` is an opaque host observer (no effect on the
containers); `proxySlot pp idx` is the value-taking lambda a
`ConvertingProxyProperty` living at path `pp` connects on its `idx`-th
input descriptor (it overwrites the cached input value and recomputes);
`touchAct` and `changeAct` model host observers that re-entrantly call
`touchProperty` or `changeProperty` from inside the notification. -/
inductive SlotF where
  | log : Nat → SlotF
  | proxySlot : Path → Nat → SlotF
  | touchAct : Path → Nat → SlotF
  | changeAct : Path → Nat → Val → SlotF
deriving Repr, DecidableEq

/-- Signal_PMF state: slot map plus the `m_index` counter. -/
structure Sig where
  nextIdx : Nat
  slots : List (Nat × SlotF)
deriving Repr, DecidableEq

def Sig.empty : Sig := ⟨0, []⟩

/-- The `m_property` pointer of a `PropertyData` entry: null, a plain
`Property<T>` holding a value, or a `ProxyProperty` that is the child
container at the given path. -/
inductive RVal where
  | plain : Val → RVal
  | proxyAt : Path → RVal
deriving Repr, DecidableEq

/-- One `PropertyData` entry: the property pointer (`prop`), the
connected signals (`m_connectedSignals`) and this container's own signal
for the descriptor (`m_signal`). -/
structure Rec4 where
  prop : Option RVal
  conn : List (Path × Nat)
  sig : Sig
deriving Repr, DecidableEq

def Rec4.empty : Rec4 := ⟨none, [], Sig.empty⟩

/-- State of the `Property<T>` side of a `ConvertingProxyProperty`:
cached input values `m_values`, combining function `m_func`, the
descriptor key `m_key` under which the proxy is stored in its parent,
and the cached result `Property<T>::m_value`. -/
structure ProxyData where
  values : List Val
  fn : List Val → Val
  key : Nat
  pval : Val

/-- Per-container state: `m_propertyData`, `m_toContainer`,
`m_changedProperties` (descriptors of this container's dirty records),
`m_removedProperties`, and — when this container is itself a
`ProxyProperty` — its property-side state. -/
structure Nd4 where
  recs : List (Nat × Rec4)
  vis : List (Nat × Path)
  dirtyL : List Nat
  removedL : List (Val × List (Path × Nat))
  pxy : Option ProxyData

instance : Inhabited Nd4 := ⟨⟨[], [], [], [], none⟩⟩

mutual
inductive Tree4 where
  | node : Nd4 → Forest4 → Tree4
inductive Forest4 where
  | nil : Forest4
  | cons : Tree4 → Forest4 → Forest4
end

def Tree4.nd : Tree4 → Nd4
  | .node n _ => n

def Tree4.kids : Tree4 → Forest4
  | .node _ f => f

def Forest4.get? : Forest4 → Nat → Option Tree4
  | .nil, _ => none
  | .cons t _, 0 => some t
  | .cons _ f, n + 1 => Forest4.get? f n

def Forest4.len : Forest4 → Nat
  | .nil => 0
  | .cons _ f => f.len + 1

def Forest4.push : Forest4 → Tree4 → Forest4
  | .nil, t => .cons t .nil
  | .cons k f, t => .cons k (f.push t)

def Tree4.sub? : Tree4 → Path → Option Tree4
  | t, [] => some t
  | t, i :: p =>
    match t.kids.get? i with
    | some k => k.sub? p
    | none => none

def Tree4.ndAt (t : Tree4) (p : Path) : Nd4 :=
  match t.sub? p with
  | some s => s.nd
  | none => default

def Tree4.updAt : Tree4 → Path → (Tree4 → Tree4) → Tree4
  | t, [], f => f t
  | .node nd kids, i :: p, f => .node nd (updKids kids i p f)
where
  updKids : Forest4 → Nat → Path → (Tree4 → Tree4) → Forest4
  | .nil, _, _, _ => .nil
  | .cons k g, 0, p, f => .cons (k.updAt p f) g
  | .cons k g, n + 1, p, f => .cons k (updKids g n p f)

def Tree4.updNd (t : Tree4) (p : Path) (f : Nd4 → Nd4) : Tree4 :=
  t.updAt p (fun s => .node (f s.nd) s.kids)

/-- `ownsPropertyDataInternal` of this revision: the entry exists and
its `m_property` is non-null. -/
def ownsNd4 (n : Nd4) (d : Nat) : Bool :=
  match lookupA n.recs d with
  | some r => r.prop.isSome
  | none => false

def Tree4.owns (t : Tree4) (p : Path) (d : Nat) : Bool := ownsNd4 (t.ndAt p) d

def Tree4.visAt (t : Tree4) (p : Path) (d : Nat) : Option Path :=
  lookupA (t.ndAt p).vis d

mutual
/-- `setParentContainerForProperty` (unchanged in this revision). -/
def spcfp4 (d : Nat) (c : Option Path) : Tree4 → Tree4
  | .node nd kids =>
    let nd1 :=
      match c with
      | some q => { nd with vis := insertA nd.vis d q }
      | none => { nd with vis := eraseA nd.vis d }
    .node nd1 (spcfp4F d c kids)
def spcfp4F (d : Nat) (c : Option Path) : Forest4 → Forest4
  | .nil => .nil
  | .cons k f =>
    .cons (if ownsNd4 k.nd d then k else spcfp4 d c k) (spcfp4F d c f)
end

mutual
/-- `getAllSignals` of this revision: push this container's own signal
when an `m_propertyData` entry exists (even a non-owning one created by
`connect`), then recurse into children that do not own property data. -/
def getAllSignals4 (d : Nat) (abs : Path) : Tree4 → List (Path × Nat)
  | .node nd kids =>
    (if (lookupA nd.recs d).isSome then [(abs, d)] else []) ++
      getAllSignals4F d abs 0 kids
def getAllSignals4F (d : Nat) (abs : Path) (i : Nat) : Forest4 → List (Path × Nat)
  | .nil => []
  | .cons k f =>
    (if ownsNd4 k.nd d then [] else getAllSignals4 d (abs ++ [i]) k) ++
      getAllSignals4F d abs (i + 1) f
end

/-- `m_propertyData[pd]`: ensure the entry exists (default-constructed
`PropertyData`, null property). -/
def ensureNd4 (n : Nd4) (d : Nat) : Nd4 :=
  match lookupA n.recs d with
  | some _ => n
  | none => { n with recs := insertA n.recs d Rec4.empty }

def Tree4.ensureAt (t : Tree4) (p : Path) (d : Nat) : Tree4 :=
  t.updNd p (ensureNd4 · d)

/-- `getOrConstructPropertyInternal`: ensure the entry and construct the
`Property<T>` when the pointer is null; a fresh `Property<T>` holds the
value-initialised `T()`, passed here as `tz`. -/
def getOrConstructNd4 (n : Nd4) (d : Nat) (tz : Val) : Nd4 :=
  match lookupA n.recs d with
  | some r =>
    match r.prop with
    | some _ => n
    | none => { n with recs := insertA n.recs d { r with prop := some (.plain tz) } }
  | none => { n with recs := insertA n.recs d { Rec4.empty with prop := some (.plain tz) } }

def Tree4.getOrConstructAt (t : Tree4) (p : Path) (d : Nat) (tz : Val) : Tree4 :=
  t.updNd p (getOrConstructNd4 · d tz)

/-- `updateAllSignals`: access the entry through `operator[]`, clear
`m_connectedSignals` and refill from `getAllSignals`. -/
def Tree4.updateAllSignals (t : Tree4) (p : Path) (d : Nat) : Tree4 :=
  let t1 := t.ensureAt p d
  match t1.sub? p with
  | some s =>
    t1.updNd p (fun n =>
      match lookupA n.recs d with
      | some r => { n with recs := insertA n.recs d { r with conn := getAllSignals4 d p s } }
      | none => n)
  | none => t1

def Tree4.getOwning (t : Tree4) (p : Path) (d : Nat) : Option Path :=
  if t.owns p d then some p else t.visAt p d

def setDirtyNd4 (n : Nd4) (d : Nat) : Nd4 :=
  if d ∈ n.dirtyL then n else { n with dirtyL := n.dirtyL ++ [d] }

/-- `setDirty` on the record of descriptor `d` owned by the container at
`p` (reached through the pointer stored in the property's signal). -/
def Tree4.setDirtyAt (t : Tree4) (p : Path) (d : Nat) : Tree4 :=
  t.updNd p (setDirtyNd4 · d)

/-- `touchPropertyInternal`: `operator[]` then `setDirty`. -/
def Tree4.touchPropertyInternal (t : Tree4) (p : Path) (d : Nat) : Tree4 :=
  (t.ensureAt p d).updNd p (setDirtyNd4 · d)

def parentOf4 : Path → Option Path
  | [] => none
  | p => some p.dropLast

/-- Stored value of the record at `q` for `d`: a plain property's value,
or the cached `Property<T>::m_value` of the proxy the record points
at. -/
def recVal (t : Tree4) (q : Path) (d : Nat) : Option Val :=
  match lookupA (t.ndAt q).recs d with
  | some r =>
    match r.prop with
    | some (.plain v) => some v
    | some (.proxyAt pp) => ((t.ndAt pp).pxy).map (·.pval)
    | none => none
  | none => none

/-- `changePropertyInternal` for a plain value: get-or-construct, then
`Property<T>::set` — store and mark dirty only on an actual change.  A
record currently holding a proxy property is the asserting
`OwnershipMisuse` branch (unspecified in release builds), modelled as no
state change. -/
def Tree4.changePropertyInternal (t : Tree4) (p : Path) (d : Nat) (v : Val) (tz : Val) : Tree4 :=
  let t1 := t.getOrConstructAt p d tz
  match lookupA (t1.ndAt p).recs d with
  | some r =>
    match r.prop with
    | some (.plain c) =>
      if v ≠ c then
        ((t1.updNd p (fun n => { n with recs := insertA n.recs d { r with prop := some (.plain v) } })).setDirtyAt p d)
      else t1
    | _ => t1
  | none => t1

def Tree4.changeProperty (t : Tree4) (p : Path) (d : Nat) (v : Val) (tz : Val) : Tree4 :=
  match t.visAt p d with
  | some q => t.changePropertyInternal q d v tz
  | none => t

def Tree4.touchProperty (t : Tree4) (p : Path) (d : Nat) : Tree4 :=
  match t.visAt p d with
  | some q => t.touchPropertyInternal q d
  | none => t

def Tree4.hasProperty (t : Tree4) (p : Path) (d : Nat) : Bool :=
  (t.visAt p d).isSome

/-- `getProperty`: descriptor default when the visibility index has no
entry or the resolved record holds a null property. -/
def Tree4.getProperty (t : Tree4) (p : Path) (d : Nat) (dflt : Val) : Val :=
  match t.visAt p d with
  | none => dflt
  | some q => (recVal t q d).getD dflt

/-- `addSignal`: `operator[]`, then append the signal reference unless
already connected. -/
def Tree4.addSignal (t : Tree4) (q : Path) (d : Nat) (s : Path × Nat) : Tree4 :=
  (t.ensureAt q d).updNd q (fun n =>
    match lookupA n.recs d with
    | some r =>
      if s ∈ r.conn then n
      else { n with recs := insertA n.recs d { r with conn := r.conn ++ [s] } }
    | none => n)

/-- `connect(pd, func)` for a value-taking functor: get the signal
through `m_propertyData[pd].m_signal` (creating a non-owning entry),
link it into the current owner's connected list, then register the slot
under the fresh `m_index` token. -/
def Tree4.connectFn (t : Tree4) (p : Path) (d : Nat) (f : SlotF) : Tree4 :=
  let t1 := t.ensureAt p d
  let t2 :=
    match t1.visAt p d with
    | some q => t1.addSignal q d (p, d)
    | none => t1
  t2.updNd p (fun n =>
    match lookupA n.recs d with
    | some r =>
      { n with recs :=
          insertA n.recs d { r with sig := ⟨r.sig.nextIdx + 1, tryEmplace r.sig.slots r.sig.nextIdx f⟩ } }
    | none => n)

mutual
def preorder4 (abs : Path) : Tree4 → List Path
  | .node _ kids => abs :: preorder4F abs 0 kids
def preorder4F (abs : Path) (i : Nat) : Forest4 → List Path
  | .nil => []
  | .cons k f => preorder4 (abs ++ [i]) k ++ preorder4F abs (i + 1) f
end

/-- Rebase the container references captured inside a slot action when a
standalone subtree is adopted (the C++ closures capture container
pointers, which keep denoting the same containers). -/
def rebaseSlot (pre : Path) : SlotF → SlotF
  | .log n => .log n
  | .proxySlot pp i => .proxySlot (pre ++ pp) i
  | .touchAct p d => .touchAct (pre ++ p) d
  | .changeAct p d v => .changeAct (pre ++ p) d v

mutual
/-- Rebase a standalone tree under a new absolute prefix; all stored
references keep denoting the same nodes, as the C++ pointers do. -/
def rebase4 (pre : Path) : Tree4 → Tree4
  | .node nd kids =>
    .node
      { nd with
        vis := nd.vis.map (fun e => (e.1, pre ++ e.2)),
        recs := nd.recs.map (fun e =>
          (e.1, { e.2 with
            conn := e.2.conn.map (fun s => (pre ++ s.1, s.2)),
            sig := ⟨e.2.sig.nextIdx, e.2.sig.slots.map (fun s => (s.1, rebaseSlot pre s.2))⟩,
            prop := e.2.prop.map (fun rv =>
              match rv with
              | .plain v => .plain v
              | .proxyAt pp => .proxyAt (pre ++ pp)) })),
        removedL := nd.removedL.map (fun e =>
          (e.1, e.2.map (fun s => (pre ++ s.1, s.2)))) }
      (rebase4F pre kids)
def rebase4F (pre : Path) : Forest4 → Forest4
  | .nil => .nil
  | .cons k f => .cons (rebase4 pre k) (rebase4F pre f)
end

/-- `addChildContainerInternal`: the adopted subtree receives a
visibility entry pointing at the host for every `m_propertyData` entry
of the host (owning or not — the loop iterates the whole map) unless the
subtree root owns the descriptor, then an entry for every descriptor in
the host's visibility index, and is appended to `m_children`. -/
def Tree4.addChild (t : Tree4) (p : Path) (s : Tree4) : Tree4 :=
  t.updAt p (fun host =>
    let s1 := rebase4 (p ++ [host.kids.len]) s
    let s2 := host.nd.recs.foldl
      (fun acc e => if ownsNd4 acc.nd e.1 then acc else spcfp4 e.1 (some p) acc) s1
    let s3 := host.nd.vis.foldl
      (fun acc e => if ownsNd4 acc.nd e.1 then acc else spcfp4 e.1 (some e.2) acc) s2
    .node host.nd (host.kids.push s3))

/-- `setProperty` with a plain value. -/
def Tree4.setProperty (t : Tree4) (p : Path) (d : Nat) (v : Val) (tz : Val) : Tree4 :=
  let t1 := t.updAt p (spcfp4 d (some p))
  let t2 := t1.getOrConstructAt p d tz
  let t3 := t2.updateAllSignals p d
  let t4 :=
    match parentOf4 p with
    | none => t3
    | some pp =>
      match t3.getOwning pp d with
      | some q => t3.updateAllSignals q d
      | none => t3
  t4.changePropertyInternal p d v tz

/-- `ConvertingProxyProperty` construction on a standalone (not yet
inserted) container: `m_values` is initialised by reading every input
descriptor through `getProperty` on the still-empty container — which
yields the inputs' default values, passed here with the descriptors —
then a value-taking lambda is connected for every input descriptor
(fresh `m_index` token 0 on each input's own signal), and finally
`anyPropertyChanged` caches `m_func` applied to the initial values in
the `Property<T>` part (whose parent is not set yet, so nothing is
marked dirty). -/
def mkProxy (fn : List Val → Val) (inputs : List (Nat × Val)) : Tree4 :=
  let values := inputs.map (·.2)
  .node
    { recs := (inputs.enum.map (fun e =>
        (e.2.1, { Rec4.empty with sig := ⟨1, [(0, SlotF.proxySlot [] e.1)]⟩ }))),
      vis := [],
      dirtyL := [],
      removedL := [],
      pxy := some ⟨values, fn, 0, fn values⟩ }
    .nil

/-- `setProperty` with a `ProxyProperty` (the proxy branch of
`changePropertyInternal`): after the common visibility and signal
bookkeeping, the proxy is adopted as a child container, the record's
property pointer is redirected at it (`PropertyData::init`, which keeps
the connected signals), the proxy's `m_key` is set, and the record is
marked dirty when the proxy's cached value differs from the descriptor
default. -/
def Tree4.setPropertyProxy (t : Tree4) (p : Path) (d : Nat) (px : Tree4) (tz dflt : Val) : Tree4 :=
  let t1 := t.updAt p (spcfp4 d (some p))
  let t2 := t1.getOrConstructAt p d tz
  let t3 := t2.updateAllSignals p d
  let t4 :=
    match parentOf4 p with
    | none => t3
    | some pp =>
      match t3.getOwning pp d with
      | some q => t3.updateAllSignals q d
      | none => t3
  let idx := ((t4.ndAt p), (t4.sub? p)).2.elim 0 (fun s => s.kids.len)
  let t5 := t4.addChild p px
  let pp := p ++ [idx]
  let t6 := t5.updNd p (fun n =>
    match lookupA n.recs d with
    | some r => { n with recs := insertA n.recs d { r with prop := some (.proxyAt pp) } }
    | none => n)
  let t7 := t6.updNd pp (fun n =>
    { n with pxy := n.pxy.map (fun px0 => { px0 with key := d }) })
  match (t7.ndAt pp).pxy with
  | some px0 => if dflt ≠ px0.pval then t7.setDirtyAt p d else t7
  | none => t7

/-- Run the state effect of one slot invocation; `v` is the value the
callback receives (the processed record's current value).  The proxy
lambda overwrites its cached input value and calls
`anyPropertyChanged`, whose `Property<T>::set` recomputes and — only on
an actual change — stores the new cached value and marks the record of
the proxy's key dirty at the parent container. -/
def runAct (t : Tree4) (v : Val) : SlotF → Tree4
  | .log _ => t
  | .touchAct q e => t.touchProperty q e
  | .changeAct q e w => t.changeProperty q e w w
  | .proxySlot pp idx =>
    match (t.ndAt pp).pxy with
    | none => t
    | some px =>
      let vals := px.values.set idx v
      let nv := px.fn vals
      if nv ≠ px.pval then
        (t.updNd pp (fun n => { n with pxy := some { px with values := vals, pval := nv } })).setDirtyAt
          pp.dropLast px.key
      else t.updNd pp (fun n => { n with pxy := some { px with values := vals } })

/-- Emission log: each slot invocation is recorded together with the
descriptor of the dirty record on whose behalf it fired (`none` for the
pending removed-property notifications, which no longer have a
record). -/
abbrev Log := List (Option Nat × SlotF)

/-- Invoke one slot on behalf of record `d`. -/
def invokeSlot (t : Tree4) (lg : Log) (d : Option Nat) (v : Val) (f : SlotF) : Tree4 × Log :=
  (runAct t v f, lg ++ [(d, f)])

/-- `emitUnique` of one connected signal inside the pass: iterate the
slots, skipping (in deduplicating mode) keys already invoked during this
pass; each invoked slot receives the processed record's current value,
read live through the record's value pointer. -/
def fireSig (dedup : Bool) (p : Path) (d : Nat) :
    List (Nat × SlotF) → Tree4 × Log × List Nat → Tree4 × Log × List Nat
  | [], st => st
  | (k, f) :: r, (t, lg, inv) =>
    if dedup ∧ k ∈ inv then fireSig dedup p d r (t, lg, inv)
    else
      let v := (recVal t p d).getD (Val.i 0)
      let st1 := invokeSlot t lg (some d) v f
      fireSig dedup p d r (st1.1, st1.2, inv ++ [k])

/-- Process one snapshot record of the pass at container `p`: fire each
of its connected signals. -/
def processRecord (dedup : Bool) (p : Path) (d : Nat) :
    List (Path × Nat) → Tree4 × Log × List Nat → Tree4 × Log × List Nat
  | [], st => st
  | sref :: r, (t, lg, inv) =>
    let slots :=
      match lookupA (t.ndAt sref.1).recs sref.2 with
      | some rc => rc.sig.slots
      | none => []
    processRecord dedup p d r (fireSig dedup p d slots (t, lg, inv))

/-- Snapshot fold of `emitEliminateDuplicates` / `emitWithDuplicates`:
process each record of the local copy of `m_changedProperties` in order,
sharing one already-invoked set across the whole pass. -/
def processSnap (dedup : Bool) (p : Path) :
    List Nat → Tree4 × Log × List Nat → Tree4 × Log × List Nat
  | [], st => st
  | d :: r, (t, lg, inv) =>
    let conns :=
      match lookupA (t.ndAt p).recs d with
      | some rc => rc.conn
      | none => []
    processSnap dedup p r (processRecord dedup p d conns (t, lg, inv))

/-- One container's record pass: take the local copy of
`m_changedProperties`, clear it, then process the copy — records
dirtied by slot actions while the pass runs land in the now-cleared
list and are left for the next emit call. -/
def emitRecordsAt (dedup : Bool) (st : Tree4 × Log) (p : Path) : Tree4 × Log :=
  let snap := (st.1.ndAt p).dirtyL
  let t0 := st.1.updNd p (fun n => { n with dirtyL := [] })
  let r := processSnap dedup p snap (t0, st.2, [])
  (r.1, r.2.1)

/-- Pending removed-property notifications of the container at `p`:
every stored signal fires all its slots with the preserved default
value, then the queue is cleared. -/
def fireRemovedList (v : Val) :
    List (Path × Nat) → Tree4 × Log → Tree4 × Log
  | [], st => st
  | sref :: r, (t, lg) =>
    let slots :=
      match lookupA (t.ndAt sref.1).recs sref.2 with
      | some rc => rc.sig.slots
      | none => []
    fireRemovedList v r (goSlots slots (t, lg))
where
  goSlots : List (Nat × SlotF) → Tree4 × Log → Tree4 × Log
  | [], st => st
  | (_, f) :: r, (t, lg) => goSlots r (invokeSlot t lg none v f)

def fireRemovedAt (st : Tree4 × Log) (p : Path) : Tree4 × Log :=
  let entries := (st.1.ndAt p).removedL
  let st1 := entries.foldl (fun acc e => fireRemovedList e.1 e.2 acc) st
  (st1.1.updNd p (fun n => { n with removedL := [] }), st1.2)

/-- One full `emit` call from the root: every container of the tree, in
preorder, runs its record pass and then discharges its removed-property
queue.  The traversal order is fixed at call time; the slot actions
modelled here mutate only node states, never the tree shape. -/
def Tree4.emit (t : Tree4) (dedup : Bool) : Tree4 × Log :=
  (preorder4 [] t).foldl (fun st p => fireRemovedAt (emitRecordsAt dedup st p) p) (t, [])

/-- Mid-pass deferral scenario: one container owning descriptors `0`
(value `1`, dirty, observed by a callback that re-entrantly calls
`changeProperty(1, 5)`) and `1` (value `0`, clean, observed by an opaque
host observer `log 99`). -/
def c8tree : Tree4 :=
  .node
    { recs := [
        (0, { prop := some (.plain (.i 1)), conn := [([], 0)],
              sig := ⟨1, [(0, .changeAct [] 1 (.i 5))]⟩ }),
        (1, { prop := some (.plain (.i 0)), conn := [([], 1)],
              sig := ⟨1, [(0, .log 99)]⟩ })],
      vis := [(0, []), (1, [])],
      dirtyL := [0],
      removedL := [],
      pxy := none }
    .nil

/-- The combining function of the computed-property scenario:
`f(x, y) = y + ": " + std::to_string(x)`. -/
def fIS : List Val → Val :=
  fun l => match l with
  | [Val.i x, Val.s y] => Val.s (y ++ ": " ++ toString x)
  | _ => Val.s ""

/-- Computed-property scenario: a fresh container adopting
`make_proxy_property(f, X, Y)` under result descriptor `2`, where input
`X` is descriptor `0` (default `0`) and input `Y` is descriptor `1`
(default `""`). -/
def c9t1 : Tree4 :=
  (Tree4.node default .nil).setPropertyProxy [] 2
    (mkProxy fIS [(0, .i 0), (1, .s "")]) (.s "") (.s "")

/-- The scenario after `setProperty(X, 20)` and one `emit`. -/
def c9t2 : Tree4 := ((c9t1.setProperty [] 0 (.i 20) (.i 0)).emit true).1

/-- The scenario after additionally `setProperty(Y, "n")` and another
`emit`. -/
def c9t3 : Tree4 := ((c9t2.setProperty [] 1 (.s "n") (.s "")).emit true).1

end PS4

/-! Association-list lemmas. -/

theorem lookupA_insertA_self {α : Type} (m : List (Nat × α)) (k : Nat) (a : α) :
    lookupA (insertA m k a) k = some a := by
  induction m with
  | nil => simp [insertA, lookupA]
  | cons h r ih =>
    obtain ⟨k1, a1⟩ := h
    by_cases hk : k1 = k <;> simp [insertA, lookupA, hk, ih]

theorem lookupA_insertA_ne {α : Type} (m : List (Nat × α)) (k k1 : Nat) (a : α)
    (h : k1 ≠ k) : lookupA (insertA m k a) k1 = lookupA m k1 := by
  have hks : k ≠ k1 := Ne.symm h
  induction m with
  | nil => simp [insertA, lookupA, hks]
  | cons hd r ih =>
    obtain ⟨k2, a2⟩ := hd
    by_cases hk : k2 = k
    · subst hk
      simp [insertA, lookupA, hks]
    · simp [insertA, lookupA, hk, ih]

theorem lookupA_eraseA_self {α : Type} (m : List (Nat × α)) (k : Nat) :
    lookupA (eraseA m k) k = none := by
  induction m with
  | nil => simp [eraseA, lookupA]
  | cons hd r ih =>
    obtain ⟨k2, a2⟩ := hd
    by_cases hk : k2 = k <;> simp [eraseA, lookupA, hk, ih]

theorem lookupA_eraseA_ne {α : Type} (m : List (Nat × α)) (k k1 : Nat)
    (h : k1 ≠ k) : lookupA (eraseA m k) k1 = lookupA m k1 := by
  have hks : k ≠ k1 := Ne.symm h
  induction m with
  | nil => simp [eraseA, lookupA]
  | cons hd r ih =>
    obtain ⟨k2, a2⟩ := hd
    by_cases hk : k2 = k
    · subst hk
      simp [eraseA, lookupA, hks, ih]
    · simp [eraseA, lookupA, hk, ih]

namespace PC

/-! Navigation lemmas for the container tree. -/

@[simp]
theorem sub?_nil (t : Tree) : t.sub? [] = some t := rfl

theorem sub?_cons (t : Tree) (i : Nat) (p : Path) :
    t.sub? (i :: p) =
      match t.kids.get? i with
      | some k => k.sub? p
      | none => none := rfl

theorem sub?_append (t : Tree) (p q : Path) :
    t.sub? (p ++ q) = (t.sub? p).bind (fun s => s.sub? q) := by
  induction p generalizing t with
  | nil => simp
  | cons i r ih =>
    rw [List.cons_append, sub?_cons, sub?_cons]
    cases t.kids.get? i with
    | none => simp
    | some k => simpa using ih k

theorem updAt_invalid (t : Tree) (p : Path) (f : Tree → Tree)
    (h : t.sub? p = none) : t.updAt p f = t := by
  induction p generalizing t with
  | nil => simp at h
  | cons i r ih =>
    obtain ⟨nd, kids⟩ := t
    rw [sub?_cons] at h
    show Tree.node nd (Tree.updAt.updKids kids i r f) = Tree.node nd kids
    congr 1
    have : ∀ j, ∀ g : Forest,
        (match g.get? j with
          | some k => k.sub? r
          | none => none) = none → Tree.updAt.updKids g j r f = g := by
      intro j
      induction j with
      | zero =>
        intro g hj
        cases g with
        | nil => rfl
        | cons k g =>
          simp only [Forest.get?] at hj
          simp [Tree.updAt.updKids, ih k hj]
      | succ j ihj =>
        intro g hj
        cases g with
        | nil => rfl
        | cons k g =>
          simp only [Forest.get?] at hj
          simp [Tree.updAt.updKids, ihj g hj]
    exact this i kids h

@[simp]
theorem nd_node (nd : Nd) (kids : Forest) : (Tree.node nd kids).nd = nd := rfl

@[simp]
theorem kids_node (nd : Nd) (kids : Forest) : (Tree.node nd kids).kids = kids := rfl

@[simp]
theorem updAt_nil (t : Tree) (f : Tree → Tree) : t.updAt [] f = f t := by
  simp [Tree.updAt]

@[simp]
theorem updAt_cons (nd : Nd) (kids : Forest) (i : Nat) (r : Path) (f : Tree → Tree) :
    (Tree.node nd kids).updAt (i :: r) f = .node nd (Tree.updAt.updKids kids i r f) := by
  simp [Tree.updAt]

@[simp]
theorem ndAt_nil (t : Tree) : t.ndAt [] = t.nd := rfl

theorem ndAt_cons (t : Tree) (j : Nat) (q : Path) :
    t.ndAt (j :: q) =
      match t.kids.get? j with
      | some k => k.ndAt q
      | none => default := by
  obtain ⟨nd, kids⟩ := t
  rw [Tree.ndAt, sub?_cons]
  simp only [kids_node]
  cases h : Forest.get? kids j with
  | none => simp [h]
  | some k => simp [h, Tree.ndAt]

theorem get?_updKids (r : Path) (f : Tree → Tree) :
    ∀ (i : Nat) (g : Forest) (j : Nat),
      (Tree.updAt.updKids g i r f).get? j =
        if i = j then (g.get? j).map (fun k => k.updAt r f) else g.get? j := by
  intro i
  induction i with
  | zero =>
    intro g j
    cases g with
    | nil => cases j <;> simp [Tree.updAt.updKids, Forest.get?]
    | cons k g => cases j <;> simp [Tree.updAt.updKids, Forest.get?]
  | succ n ih =>
    intro g j
    cases g with
    | nil => cases j <;> simp [Tree.updAt.updKids, Forest.get?]
    | cons k g =>
      cases j with
      | zero => simp [Tree.updAt.updKids, Forest.get?]
      | succ m => simpa [Tree.updAt.updKids, Forest.get?, Nat.succ_inj] using ih g m

theorem sub?_updAt_ext (t : Tree) (p : Path) (f : Tree → Tree) (s : Tree)
    (h : t.sub? p = some s) (q : Path) :
    (t.updAt p f).sub? (p ++ q) = (f s).sub? q := by
  induction p generalizing t with
  | nil =>
    simp only [sub?_nil, Option.some.injEq] at h
    subst h
    simp
  | cons i r ih =>
    obtain ⟨nd, kids⟩ := t
    rw [sub?_cons] at h
    simp only [kids_node] at h
    rw [List.cons_append, updAt_cons, sub?_cons]
    simp only [kids_node, get?_updKids, if_pos rfl]
    cases hk : Forest.get? kids i with
    | none => rw [hk] at h; cases h
    | some k =>
      rw [hk] at h
      simpa using ih k h

theorem ndAt_updAt_not_ext (t : Tree) (p : Path) (f : Tree → Tree) (q : Path)
    (h : ¬ p <+: q) : (t.updAt p f).ndAt q = t.ndAt q := by
  induction p generalizing t q with
  | nil => exact absurd (List.nil_prefix) h
  | cons i r ih =>
    obtain ⟨nd, kids⟩ := t
    cases q with
    | nil => rfl
    | cons j q0 =>
      rw [updAt_cons, ndAt_cons, ndAt_cons]
      simp only [kids_node, get?_updKids]
      by_cases hij : i = j
      · subst hij
        simp only [if_pos rfl]
        cases hk : Forest.get? kids i with
        | none => simp
        | some k =>
          have hr : ¬ r <+: q0 := fun hp => h (List.cons_prefix_cons.mpr ⟨rfl, hp⟩)
          simpa using ih k q0 hr
      · simp only [if_neg hij]

theorem sub?_isSome_updAt (f : Tree → Tree)
    (hf : ∀ s q, ((f s).sub? q).isSome = (s.sub? q).isSome) :
    ∀ (p : Path) (t : Tree) (q : Path),
      ((t.updAt p f).sub? q).isSome = (t.sub? q).isSome := by
  intro p
  induction p with
  | nil => intro t q; rw [updAt_nil]; exact hf t q
  | cons i r ih =>
    intro t q
    obtain ⟨nd, kids⟩ := t
    cases q with
    | nil => rfl
    | cons j q0 =>
      rw [updAt_cons, sub?_cons, sub?_cons]
      simp only [kids_node, get?_updKids]
      by_cases hij : i = j
      · subst hij
        simp only [if_pos rfl]
        cases hk : Forest.get? kids i with
        | none => simp
        | some k => simpa using ih k q0
      · simp only [if_neg hij]

theorem sub?_isSome_updNd (t : Tree) (p : Path) (g : Nd → Nd) (q : Path) :
    ((t.updNd p g).sub? q).isSome = (t.sub? q).isSome := by
  refine sub?_isSome_updAt _ (fun s q0 => ?_) p t q
  cases q0 with
  | nil => rfl
  | cons j r =>
    obtain ⟨nd, kids⟩ := s
    rfl

theorem validP_updNd (t : Tree) (p : Path) (g : Nd → Nd) (q : Path) :
    (t.updNd p g).validP q = t.validP q := by
  simp [Tree.validP, sub?_isSome_updNd]

theorem ndAt_updNd_self (t : Tree) (p : Path) (g : Nd → Nd)
    (h : t.validP p) : (t.updNd p g).ndAt p = g (t.ndAt p) := by
  rw [Tree.validP] at h
  cases hs : t.sub? p with
  | none => rw [hs] at h; cases h
  | some s =>
    have := sub?_updAt_ext t p (fun s => .node (g s.nd) s.kids) s hs []
    rw [List.append_nil] at this
    rw [Tree.updNd, Tree.ndAt, this, Tree.ndAt, hs]
    rfl

theorem ndAt_updNd_ne (t : Tree) (p : Path) (g : Nd → Nd) (q : Path)
    (h : q ≠ p) : (t.updNd p g).ndAt q = t.ndAt q := by
  by_cases hpre : p <+: q
  · obtain ⟨rel, hrel⟩ := hpre
    cases hs : t.sub? p with
    | none => rw [Tree.updNd, updAt_invalid t p _ hs]
    | some s =>
      have hrne : rel ≠ [] := by
        intro hr
        rw [hr, List.append_nil] at hrel
        exact h hrel.symm
      have := sub?_updAt_ext t p (fun s => .node (g s.nd) s.kids) s hs rel
      rw [hrel] at this
      rw [Tree.updNd, Tree.ndAt, this]
      cases rel with
      | nil => exact absurd rfl hrne
      | cons j rel0 =>
        rw [Tree.ndAt, ← hrel, sub?_append, hs]
        rfl
  · exact ndAt_updAt_not_ext t p _ q hpre

theorem updNd_invalid (t : Tree) (p : Path) (g : Nd → Nd)
    (h : t.sub? p = none) : t.updNd p g = t := updAt_invalid t p _ h

theorem ndAt_append (t : Tree) (p : Path) (s : Tree) (hs : t.sub? p = some s)
    (rel : Path) : t.ndAt (p ++ rel) = s.ndAt rel := by
  rw [Tree.ndAt, sub?_append, hs]
  simp only [Option.some_bind]
  rw [Tree.ndAt]

theorem validP_append (t : Tree) (p : Path) (s : Tree) (hs : t.sub? p = some s)
    (rel : Path) : t.validP (p ++ rel) = s.validP rel := by
  rw [Tree.validP, sub?_append, hs]
  simp only [Option.some_bind]
  rw [Tree.validP]

theorem validP_prefix (t : Tree) (p q : Path) (hpre : p <+: q)
    (h : t.validP q) : t.validP p := by
  obtain ⟨rel, hrel⟩ := hpre
  subst hrel
  rw [Tree.validP, sub?_append] at h
  cases hs : t.sub? p with
  | none => rw [hs] at h; cases h
  | some s => rw [Tree.validP, hs]; rfl

/-! Characterisation of `setParentContainerForProperty`. -/

@[simp]
theorem spcfp_node (d : Nat) (c : Option Path) (nd : Nd) (kids : Forest) :
    spcfp d c (.node nd kids) = .node (setVisNd nd d c) (spcfpF d c kids) := by
  rw [spcfp]

theorem get?_spcfpF (d : Nat) (c : Option Path) :
    ∀ (i : Nat) (g : Forest),
      (spcfpF d c g).get? i =
        (g.get? i).map (fun k => if ownsNd k.nd d then k else spcfp d c k) := by
  intro i
  induction i with
  | zero =>
    intro g
    cases g with
    | nil => simp [spcfpF, Forest.get?]
    | cons k g => simp [spcfpF, Forest.get?]
  | succ n ih =>
    intro g
    cases g with
    | nil => simp [spcfpF, Forest.get?]
    | cons k g => simpa [spcfpF, Forest.get?] using ih g

theorem ndAt_spcfp (d : Nat) (c : Option Path) :
    ∀ (rel : Path) (s : Tree),
      (spcfp d c s).ndAt rel =
        if freeB d s rel then setVisNd (s.ndAt rel) d c else s.ndAt rel := by
  intro rel
  induction rel with
  | nil =>
    intro s
    obtain ⟨nd, kids⟩ := s
    simp [freeB]
  | cons i q0 ih =>
    intro s
    obtain ⟨nd, kids⟩ := s
    rw [spcfp_node, ndAt_cons, ndAt_cons]
    simp only [kids_node, get?_spcfpF]
    cases hk : kids.get? i with
    | none => simp [freeB, hk]
    | some k =>
      by_cases ho : ownsNd k.nd d
      · simp [freeB, hk, ho]
      · simp [freeB, hk, ho, ih k]

theorem sub?_isSome_spcfp (d : Nat) (c : Option Path) :
    ∀ (q : Path) (s : Tree), ((spcfp d c s).sub? q).isSome = (s.sub? q).isSome := by
  intro q
  induction q with
  | nil => intro s; simp
  | cons i q0 ih =>
    intro s
    obtain ⟨nd, kids⟩ := s
    rw [spcfp_node, sub?_cons, sub?_cons]
    simp only [kids_node, get?_spcfpF]
    cases hk : kids.get? i with
    | none => simp
    | some k =>
      by_cases ho : ownsNd k.nd d <;> simp [ho, ih k]

theorem validP_updAt_spcfp (t : Tree) (p : Path) (d : Nat) (c : Option Path)
    (q : Path) : (t.updAt p (spcfp d c)).validP q = t.validP q := by
  rw [Tree.validP, Tree.validP]
  exact sub?_isSome_updAt _ (fun s r => sub?_isSome_spcfp d c r s) p t q

/-- Recs, dirty list, signal map and removed queue of every node are
untouched by `setParentContainerForProperty` (it writes the visibility
index only). -/
theorem setVisNd_fields (n : Nd) (d : Nat) (c : Option Path) :
    (setVisNd n d c).recs = n.recs ∧ (setVisNd n d c).sigs = n.sigs ∧
      (setVisNd n d c).dirtyL = n.dirtyL ∧ (setVisNd n d c).removedL = n.removedL := by
  cases c <;> simp [setVisNd]

theorem ndAt_spcfp_fields (d : Nat) (c : Option Path) (rel : Path) (s : Tree) :
    ((spcfp d c s).ndAt rel).recs = (s.ndAt rel).recs ∧
      ((spcfp d c s).ndAt rel).sigs = (s.ndAt rel).sigs ∧
      ((spcfp d c s).ndAt rel).dirtyL = (s.ndAt rel).dirtyL ∧
      ((spcfp d c s).ndAt rel).removedL = (s.ndAt rel).removedL := by
  rw [ndAt_spcfp]
  by_cases h : freeB d s rel <;> simp [h, setVisNd_fields]

/-- Visibility entries of other descriptors are untouched. -/
theorem vis_setVisNd_ne (n : Nd) (d : Nat) (c : Option Path) (e : Nat)
    (h : e ≠ d) : lookupA (setVisNd n d c).vis e = lookupA n.vis e := by
  cases c <;> simp [setVisNd, lookupA_insertA_ne _ _ _ _ h, lookupA_eraseA_ne _ _ _ h]

theorem freeB_iff (d : Nat) :
    ∀ (rel : Path) (s : Tree), (s.sub? rel).isSome →
      (freeB d s rel = true ↔
        ∀ r0, r0 <+: rel → r0 ≠ [] → ownsNd (s.ndAt r0) d = false) := by
  intro rel
  induction rel with
  | nil =>
    intro s _
    constructor
    · intro _ r0 hr0 hne
      exact absurd (List.prefix_nil.mp hr0) hne
    · intro _
      simp [freeB]
  | cons i q0 ih =>
    intro s hval
    obtain ⟨nd, kids⟩ := s
    rw [sub?_cons] at hval
    simp only [kids_node] at hval
    cases hk : kids.get? i with
    | none => rw [hk] at hval; simp at hval
    | some k =>
      rw [hk] at hval
      have hfk : freeB d (Tree.node nd kids) (i :: q0) =
          (!ownsNd k.nd d && freeB d k q0) := by
        simp [freeB, hk]
      rw [hfk]
      constructor
      · intro hf r0 hr0 hne
        cases r0 with
        | nil => exact absurd rfl hne
        | cons j r1 =>
          obtain ⟨hj, hr1⟩ := List.cons_prefix_cons.mp hr0
          subst hj
          rw [ndAt_cons]
          simp only [kids_node, hk]
          cases r1 with
          | nil =>
            simp only [ndAt_nil]
            simp only [Bool.and_eq_true, Bool.not_eq_true'] at hf
            exact hf.1
          | cons j2 r2 =>
            simp only [Bool.and_eq_true, Bool.not_eq_true'] at hf
            exact (ih k hval).mp hf.2 (j2 :: r2) hr1 (by simp)
      · intro hall
        have h1 : ownsNd k.nd d = false := by
          have := hall [i] (List.cons_prefix_cons.mpr ⟨rfl, List.nil_prefix⟩) (by simp)
          rw [ndAt_cons] at this
          simpa [hk] using this
        have h2 : freeB d k q0 = true := by
          refine (ih k hval).mpr ?_
          intro r0 hr0 hne
          have := hall (i :: r0) (List.cons_prefix_cons.mpr ⟨rfl, hr0⟩) (by simp)
          rw [ndAt_cons] at this
          simpa [hk] using this
        simp [h1, h2]

/-! Lemmas about the nearest inclusive-ancestor owner. -/

theorem nearestOwner_nil (t : Tree) (d : Nat) :
    t.nearestOwner [] d = if t.owns [] d then some [] else none := by
  rw [Tree.nearestOwner]

theorem nearestOwner_concat (t : Tree) (l : Path) (a : Nat) (d : Nat) :
    t.nearestOwner (l ++ [a]) d =
      if t.owns (l ++ [a]) d then some (l ++ [a]) else t.nearestOwner l d := by
  cases l with
  | nil =>
    simp only [List.nil_append]
    conv_lhs => rw [Tree.nearestOwner.eq_def]
    rfl
  | cons i r =>
    rw [show (i :: r) ++ [a] = i :: (r ++ [a]) from rfl, Tree.nearestOwner]
    have hd : (i :: (r ++ [a])).dropLast = i :: r := by
      rw [show i :: (r ++ [a]) = (i :: r) ++ [a] from rfl, List.dropLast_concat]
    rw [hd]

theorem nearestOwner_owns (t : Tree) (d : Nat) :
    ∀ p x, t.nearestOwner p d = some x → t.owns x d = true ∧ x <+: p := by
  intro p
  induction p using List.reverseRecOn with
  | nil =>
    intro x h
    rw [nearestOwner_nil] at h
    by_cases ho : t.owns [] d
    · rw [if_pos ho] at h
      cases h
      exact ⟨ho, List.nil_prefix⟩
    · rw [if_neg ho] at h
      cases h
  | append_singleton l a ih =>
    intro x h
    rw [nearestOwner_concat] at h
    by_cases ho : t.owns (l ++ [a]) d
    · rw [if_pos ho] at h
      cases h
      exact ⟨ho, List.prefix_refl _⟩
    · rw [if_neg ho] at h
      obtain ⟨h1, h2⟩ := ih x h
      exact ⟨h1, h2.trans (List.prefix_append _ _)⟩

theorem nearestOwner_congr (t t' : Tree) (d : Nat) :
    ∀ p, (∀ y, y <+: p → t'.owns y d = t.owns y d) →
      t'.nearestOwner p d = t.nearestOwner p d := by
  intro p
  induction p using List.reverseRecOn with
  | nil =>
    intro h
    rw [nearestOwner_nil, nearestOwner_nil, h [] List.nil_prefix]
  | append_singleton l a ih =>
    intro h
    rw [nearestOwner_concat, nearestOwner_concat, h _ (List.prefix_refl _),
      ih (fun y hy => h y (hy.trans (List.prefix_append _ _)))]

theorem nearestOwner_free_drop (t : Tree) (d : Nat) (x : Path) :
    ∀ rel, (∀ r0, r0 <+: rel → r0 ≠ [] → t.owns (x ++ r0) d = false) →
      t.nearestOwner (x ++ rel) d = t.nearestOwner x d := by
  intro rel
  induction rel using List.reverseRecOn with
  | nil => intro _; rw [List.append_nil]
  | append_singleton r a ih =>
    intro h
    rw [← List.append_assoc, nearestOwner_concat]
    have ho : t.owns (x ++ r ++ [a]) d = false := by
      have := h (r ++ [a]) (List.prefix_refl _) (by simp)
      rwa [← List.append_assoc] at this
    simp only [ho, Bool.false_eq_true, if_false]
    exact ih (fun r0 hr0 hne => h r0 (hr0.trans (List.prefix_append _ _)) hne)

/-- Walking from `p ++ rel` with every strict extension of `p` on the
way not owning in `tNew`, where `tNew` owns at `p`: the nearest owner is
`p` itself. -/
theorem nearestOwner_insert (tOld tNew : Tree) (d : Nat) (p : Path)
    (hagree : ∀ y, y ≠ p → tNew.owns y d = tOld.owns y d)
    (hp : tNew.owns p d = true) :
    ∀ rel, (∀ r0, r0 <+: rel → r0 ≠ [] → tOld.owns (p ++ r0) d = false) →
      tNew.nearestOwner (p ++ rel) d = some p := by
  intro rel hfree
  have hfree2 : ∀ r0, r0 <+: rel → r0 ≠ [] → tNew.owns (p ++ r0) d = false := by
    intro r0 hr0 hne
    have hne2 : p ++ r0 ≠ p := by
      intro he
      have hr00 : r0 = [] := by
        have hlen := congrArg List.length he
        simpa using hlen
      exact hne hr00
    rw [hagree _ hne2]
    exact hfree r0 hr0 hne
  rw [nearestOwner_free_drop tNew d p rel hfree2]
  cases p with
  | nil => rw [nearestOwner_nil, if_pos hp]
  | cons i r =>
    obtain ⟨l, a, hla⟩ : ∃ l a, i :: r = l ++ [a] := by
      cases hcc : (i :: r).reverse with
      | nil => simp at hcc
      | cons b bs =>
        refine ⟨bs.reverse, b, ?_⟩
        have := congrArg List.reverse hcc
        simpa using this
    rw [hla] at hp ⊢
    rw [nearestOwner_concat, if_pos hp]

/-- When some strict extension of `p` on the way to `p ++ rel` owns in
`tOld`, and `tOld` and `tNew` agree everywhere except possibly at `p`,
the nearest owner is unchanged. -/
theorem nearestOwner_agree_above (tOld tNew : Tree) (d : Nat) (p : Path)
    (hagree : ∀ y, y ≠ p → tNew.owns y d = tOld.owns y d) :
    ∀ rel, (∃ r0, r0 <+: rel ∧ r0 ≠ [] ∧ tOld.owns (p ++ r0) d = true) →
      tNew.nearestOwner (p ++ rel) d = tOld.nearestOwner (p ++ rel) d := by
  intro rel
  induction rel using List.reverseRecOn with
  | nil =>
    rintro ⟨r0, hr0, hne, _⟩
    exact absurd (List.prefix_nil.mp hr0) hne
  | append_singleton r a ih =>
    rintro ⟨r0, hr0, hne, hown⟩
    have hq : p ++ (r ++ [a]) ≠ p := by
      intro he
      have := congrArg List.length he
      simp at this
    rw [← List.append_assoc, nearestOwner_concat, nearestOwner_concat,
      show p ++ r ++ [a] = p ++ (r ++ [a]) from (List.append_assoc p r [a]),
      hagree _ hq]
    by_cases hah : tOld.owns (p ++ (r ++ [a])) d
    · rw [if_pos hah, if_pos hah]
    · rw [if_neg hah, if_neg hah]
      rcases (List.prefix_concat_iff.mp hr0) with h1 | h1
      · rw [h1] at hown
        rw [← List.append_assoc] at hown
        exact absurd hown (by simpa [List.append_assoc] using hah)
      · exact ih ⟨r0, h1, hne, hown⟩

/-- Erasing the ownership at `p`: a walk from `p ++ rel` with every
strict extension of `p` on the way not owning continues past `p` to the
nearest owner strictly above `p`. -/
theorem nearestOwner_erase (tOld tNew : Tree) (d : Nat) (p : Path)
    (hagree : ∀ y, y ≠ p → tNew.owns y d = tOld.owns y d)
    (hp : tNew.owns p d = false) :
    ∀ rel, (∀ r0, r0 <+: rel → r0 ≠ [] → tOld.owns (p ++ r0) d = false) →
      tNew.nearestOwner (p ++ rel) d = nearestAbove tOld p d := by
  intro rel hfree
  have hfree2 : ∀ r0, r0 <+: rel → r0 ≠ [] → tNew.owns (p ++ r0) d = false := by
    intro r0 hr0 hne
    have hne2 : p ++ r0 ≠ p := by
      intro he
      have hr00 : r0 = [] := by
        have hlen := congrArg List.length he
        simpa using hlen
      exact hne hr00
    rw [hagree _ hne2]
    exact hfree r0 hr0 hne
  rw [nearestOwner_free_drop tNew d p rel hfree2]
  cases p with
  | nil =>
    rw [nearestOwner_nil, if_neg (by simp [hp]), nearestAbove]
  | cons i r =>
    rw [Tree.nearestOwner, if_neg (by simp [hp]), nearestAbove]
    exact nearestOwner_congr tOld tNew d _ (fun y hy => by
      refine hagree y ?_
      intro he
      subst he
      have h1 := hy.length_le
      have h2 : (i :: r).dropLast.length < (i :: r).length := by
        rw [List.length_dropLast]
        simp
      omega)

/-! Pointwise effect of node-local updates, and per-operation component
lemmas. -/

theorem ndAt_updNd (t : Tree) (p : Path) (g : Nd → Nd) (q : Path) :
    (t.updNd p g).ndAt q =
      if t.validP p ∧ q = p then g (t.ndAt p) else t.ndAt q := by
  by_cases hv : t.validP p
  · by_cases hq : q = p
    · subst hq
      simp [hv, ndAt_updNd_self t q g hv]
    · simp [hq, ndAt_updNd_ne t p g q hq]
  · have hnone : t.sub? p = none := by
      rw [Tree.validP] at hv
      cases h : t.sub? p with
      | none => rfl
      | some s => rw [h] at hv; simp at hv
    simp [updNd_invalid t p g hnone, hv]

theorem getOrConstructNd_vis (n : Nd) (d : Nat) :
    (getOrConstructNd n d).vis = n.vis := by
  cases h : lookupA n.recs d <;> simp [getOrConstructNd, h]

theorem getOrConstructNd_dirty (n : Nd) (d : Nat) :
    (getOrConstructNd n d).dirtyL = n.dirtyL := by
  cases h : lookupA n.recs d <;> simp [getOrConstructNd, h]

theorem getOrConstructNd_removed (n : Nd) (d : Nat) :
    (getOrConstructNd n d).removedL = n.removedL := by
  cases h : lookupA n.recs d <;> simp [getOrConstructNd, h]

theorem getOrConstructNd_sigs (n : Nd) (d : Nat) :
    (getOrConstructNd n d).sigs = n.sigs := by
  cases h : lookupA n.recs d <;> simp [getOrConstructNd, h]

theorem getOrConstructNd_owns_self (n : Nd) (d : Nat) :
    ownsNd (getOrConstructNd n d) d = true := by
  cases h : lookupA n.recs d <;>
    simp [getOrConstructNd, ownsNd, h, lookupA_insertA_self]

theorem getOrConstructNd_owns_ne (n : Nd) (d e : Nat) (h : e ≠ d) :
    ownsNd (getOrConstructNd n d) e = ownsNd n e := by
  cases hl : lookupA n.recs d <;>
    simp [getOrConstructNd, ownsNd, hl, lookupA_insertA_ne _ _ _ _ h]

theorem getOrConstructNd_value_of_owns (n : Nd) (d : Nat) (h : ownsNd n d = true) :
    getOrConstructNd n d = n := by
  rw [ownsNd] at h
  cases hl : lookupA n.recs d with
  | none => rw [hl] at h; simp at h
  | some r => simp [getOrConstructNd, hl]

theorem visAt_getOrConstructAt (t : Tree) (p : Path) (d : Nat) (q : Path) (e : Nat) :
    (t.getOrConstructAt p d).visAt q e = t.visAt q e := by
  rw [Tree.getOrConstructAt, Tree.visAt, Tree.visAt, ndAt_updNd]
  by_cases h : t.validP p ∧ q = p
  · obtain ⟨hv, hq⟩ := h
    subst hq
    simp [hv, getOrConstructNd_vis]
  · simp [h]

theorem owns_getOrConstructAt_self (t : Tree) (p : Path) (d : Nat)
    (hv : t.validP p) : (t.getOrConstructAt p d).owns p d = true := by
  rw [Tree.getOrConstructAt, Tree.owns, ndAt_updNd]
  simp [hv, getOrConstructNd_owns_self]

theorem owns_getOrConstructAt_other (t : Tree) (p : Path) (d : Nat) (q : Path)
    (e : Nat) (h : ¬ (q = p ∧ e = d)) :
    (t.getOrConstructAt p d).owns q e = t.owns q e := by
  rw [Tree.getOrConstructAt, Tree.owns, Tree.owns, ndAt_updNd]
  by_cases hq : t.validP p ∧ q = p
  · obtain ⟨hv, hqp⟩ := hq
    subst hqp
    have he : e ≠ d := fun hed => h ⟨rfl, hed⟩
    simp [hv, getOrConstructNd_owns_ne _ _ _ he]
  · simp [hq]

theorem dirty_getOrConstructAt (t : Tree) (p : Path) (d : Nat) (q : Path) :
    ((t.getOrConstructAt p d).ndAt q).dirtyL = (t.ndAt q).dirtyL := by
  rw [Tree.getOrConstructAt, ndAt_updNd]
  by_cases h : t.validP p ∧ q = p
  · obtain ⟨hv, hq⟩ := h
    subst hq
    simp [hv, getOrConstructNd_dirty]
  · simp [h]

theorem removed_getOrConstructAt (t : Tree) (p : Path) (d : Nat) (q : Path) :
    ((t.getOrConstructAt p d).ndAt q).removedL = (t.ndAt q).removedL := by
  rw [Tree.getOrConstructAt, ndAt_updNd]
  by_cases h : t.validP p ∧ q = p
  · obtain ⟨hv, hq⟩ := h
    subst hq
    simp [hv, getOrConstructNd_removed]
  · simp [h]

theorem validP_getOrConstructAt (t : Tree) (p : Path) (d : Nat) (q : Path) :
    (t.getOrConstructAt p d).validP q = t.validP q :=
  validP_updNd t p _ q

theorem updNd_sigOnly (t : Tree) (p : Path) (g : Nd → Nd) (hg : SigOnly g)
    (q : Path) (e : Nat) :
    (t.updNd p g).visAt q e = t.visAt q e ∧
      (t.updNd p g).owns q e = t.owns q e ∧
      ((t.updNd p g).ndAt q).dirtyL = (t.ndAt q).dirtyL ∧
      ((t.updNd p g).ndAt q).removedL = (t.ndAt q).removedL ∧
      (t.updNd p g).valueAt q e = t.valueAt q e := by
  rw [Tree.visAt, Tree.visAt, Tree.owns, Tree.owns, Tree.valueAt, Tree.valueAt,
    ndAt_updNd]
  by_cases h : t.validP p ∧ q = p
  · obtain ⟨hv, hq⟩ := h
    subst hq
    obtain ⟨h1, h2, h3, h4, h5⟩ := hg (t.ndAt q)
    simp [hv, h1, h2, h3, h4, h5]
  · simp [h]

/-- The connected-signal refill of `updateAllSignals` edits only the
record's `conn` field. -/
theorem connSet_sigOnly (d : Nat) (cs : List (Path × Nat)) :
    SigOnly (fun n =>
      match lookupA n.recs d with
      | some r => { n with recs := insertA n.recs d { r with conn := cs } }
      | none => n) := by
  intro n
  cases hl : lookupA n.recs d with
  | none => simp [hl]
  | some r =>
    refine ⟨by simp [hl], by simp [hl], by simp [hl], fun e => ?_, fun e => ?_⟩ <;>
    · by_cases he : e = d
      · subst he
        simp [ownsNd, hl, lookupA_insertA_self]
      · simp [ownsNd, hl, lookupA_insertA_ne _ _ _ _ he]

theorem updateAllSignals_effects (t : Tree) (p : Path) (d : Nat) (q : Path) (e : Nat) :
    (t.updateAllSignals p d).visAt q e = (t.getOrConstructAt p d).visAt q e ∧
      (t.updateAllSignals p d).owns q e = (t.getOrConstructAt p d).owns q e ∧
      ((t.updateAllSignals p d).ndAt q).dirtyL = ((t.getOrConstructAt p d).ndAt q).dirtyL ∧
      ((t.updateAllSignals p d).ndAt q).removedL = ((t.getOrConstructAt p d).ndAt q).removedL ∧
      (t.updateAllSignals p d).valueAt q e = (t.getOrConstructAt p d).valueAt q e := by
  rw [Tree.updateAllSignals]
  cases hs : (t.getOrConstructAt p d).sub? p with
  | none => exact ⟨rfl, rfl, rfl, rfl, rfl⟩
  | some s =>
    simp only []
    exact updNd_sigOnly _ p _ (connSet_sigOnly d _) q e

theorem validP_updateAllSignals (t : Tree) (p : Path) (d : Nat) (q : Path) :
    (t.updateAllSignals p d).validP q = t.validP q := by
  rw [Tree.updateAllSignals]
  cases hs : (t.getOrConstructAt p d).sub? p with
  | none => exact validP_getOrConstructAt t p d q
  | some s =>
    simp only []
    rw [validP_updNd]
    exact validP_getOrConstructAt t p d q

/-- Summary: `updateAllSignals` leaves the visibility index, dirty
lists and removed queues untouched everywhere, leaves stored values
unchanged, and changes ownership only by constructing the record at its
target. -/
theorem visAt_updateAllSignals (t : Tree) (p : Path) (d : Nat) (q : Path) (e : Nat) :
    (t.updateAllSignals p d).visAt q e = t.visAt q e := by
  rw [(updateAllSignals_effects t p d q e).1, visAt_getOrConstructAt]

theorem owns_updateAllSignals_self (t : Tree) (p : Path) (d : Nat)
    (hv : t.validP p) : (t.updateAllSignals p d).owns p d = true := by
  rw [(updateAllSignals_effects t p d p d).2.1, owns_getOrConstructAt_self t p d hv]

theorem owns_updateAllSignals_other (t : Tree) (p : Path) (d : Nat) (q : Path)
    (e : Nat) (h : ¬ (q = p ∧ e = d)) :
    (t.updateAllSignals p d).owns q e = t.owns q e := by
  rw [(updateAllSignals_effects t p d q e).2.1, owns_getOrConstructAt_other t p d q e h]

theorem dirty_updateAllSignals (t : Tree) (p : Path) (d : Nat) (q : Path) :
    ((t.updateAllSignals p d).ndAt q).dirtyL = (t.ndAt q).dirtyL := by
  rw [(updateAllSignals_effects t p d q 0).2.2.1, dirty_getOrConstructAt]

theorem removed_updateAllSignals (t : Tree) (p : Path) (d : Nat) (q : Path) :
    ((t.updateAllSignals p d).ndAt q).removedL = (t.ndAt q).removedL := by
  rw [(updateAllSignals_effects t p d q 0).2.2.2.1, removed_getOrConstructAt]

theorem owns_invalid (t : Tree) (q : Path) (e : Nat) (hv : ¬ t.validP q) :
    t.owns q e = false := by
  rw [Tree.validP] at hv
  cases hsub : t.sub? q with
  | some s => rw [hsub] at hv; simp at hv
  | none =>
    rw [Tree.owns, Tree.ndAt, hsub]
    rfl

theorem owns_updateAllSignals_of_owns (t : Tree) (p : Path) (d : Nat) (q : Path)
    (e : Nat) (h : t.owns q e = true) :
    (t.updateAllSignals p d).owns q e = true := by
  by_cases hqe : q = p ∧ e = d
  · obtain ⟨hq, he⟩ := hqe
    subst hq; subst he
    by_cases hv : t.validP q
    · exact owns_updateAllSignals_self t q e hv
    · rw [owns_invalid t q e hv] at h
      cases h
  · rw [owns_updateAllSignals_other t p d q e hqe, h]

theorem updKids_eq_self (r : Path) (f : Tree → Tree) :
    ∀ (i : Nat) (g : Forest), (∀ k, g.get? i = some k → k.updAt r f = k) →
      Tree.updAt.updKids g i r f = g := by
  intro i
  induction i with
  | zero =>
    intro g h
    cases g with
    | nil => rfl
    | cons k g => simp [Tree.updAt.updKids, h k rfl]
  | succ n ih =>
    intro g h
    cases g with
    | nil => rfl
    | cons k g => simp [Tree.updAt.updKids, ih g h]

theorem updAt_eq_self (f : Tree → Tree) :
    ∀ (p : Path) (t : Tree), (∀ s, t.sub? p = some s → f s = s) → t.updAt p f = t := by
  intro p
  induction p with
  | nil =>
    intro t h
    rw [updAt_nil, h t rfl]
  | cons i r ih =>
    intro t h
    obtain ⟨nd, kids⟩ := t
    rw [updAt_cons, updKids_eq_self]
    intro k hk
    refine ih k (fun s hs => h s ?_)
    rw [sub?_cons]
    simp [hk, hs]

theorem updNd_eq_self (t : Tree) (p : Path) (g : Nd → Nd)
    (h : g (t.ndAt p) = t.ndAt p) : t.updNd p g = t := by
  refine updAt_eq_self _ p t (fun s hs => ?_)
  have : t.ndAt p = s.nd := by rw [Tree.ndAt, hs]
  rw [this] at h
  rw [h]
  cases s
  rfl

theorem getOrConstructAt_of_owns (t : Tree) (p : Path) (d : Nat)
    (h : t.owns p d = true) : t.getOrConstructAt p d = t :=
  updNd_eq_self t p _ (getOrConstructNd_value_of_owns _ d h)

/-- `Property<T>::set` with the currently stored value: a complete
no-op (redundant writes neither store nor mark dirty). -/
theorem changeInternal_of_eq (t : Tree) (p : Path) (d : Nat) (v : Int)
    (h : t.valueAt p d = some v) : t.changePropertyInternal p d v = t := by
  have howns : t.owns p d = true := by
    rw [Tree.valueAt] at h
    rw [Tree.owns, ownsNd]
    cases hl : lookupA (t.ndAt p).recs d with
    | none => rw [hl] at h; cases h
    | some r => rfl
  have ht1 : t.getOrConstructAt p d = t := getOrConstructAt_of_owns t p d howns
  rw [Tree.changePropertyInternal, ht1]
  rw [Tree.valueAt] at h
  cases hl : lookupA (t.ndAt p).recs d with
  | none => rfl
  | some r =>
    rw [hl] at h
    simp at h
    simp [h]

theorem setDirtyNd_vis (n : Nd) (d : Nat) : (setDirtyNd n d).vis = n.vis := by
  rw [setDirtyNd]; split <;> rfl

theorem setDirtyNd_recs (n : Nd) (d : Nat) : (setDirtyNd n d).recs = n.recs := by
  rw [setDirtyNd]; split <;> rfl

theorem setDirtyNd_removed (n : Nd) (d : Nat) :
    (setDirtyNd n d).removedL = n.removedL := by
  rw [setDirtyNd]; split <;> rfl

theorem visAt_updNd_pres (t : Tree) (p : Path) (g : Nd → Nd)
    (hg : ∀ n, (g n).vis = n.vis) (q : Path) (e : Nat) :
    (t.updNd p g).visAt q e = t.visAt q e := by
  rw [Tree.visAt, Tree.visAt, ndAt_updNd]
  by_cases h : t.validP p ∧ q = p
  · obtain ⟨hv, hq⟩ := h
    subst hq
    simp [hv, hg]
  · simp [h]

theorem owns_updNd_pres (t : Tree) (p : Path) (g : Nd → Nd) (e : Nat)
    (hg : ∀ n, ownsNd (g n) e = ownsNd n e) (q : Path) :
    (t.updNd p g).owns q e = t.owns q e := by
  rw [Tree.owns, Tree.owns, ndAt_updNd]
  by_cases h : t.validP p ∧ q = p
  · obtain ⟨hv, hq⟩ := h
    subst hq
    simp [hv, hg]
  · simp [h]

theorem dirty_updNd_pres (t : Tree) (p : Path) (g : Nd → Nd)
    (hg : ∀ n, (g n).dirtyL = n.dirtyL) (q : Path) :
    ((t.updNd p g).ndAt q).dirtyL = (t.ndAt q).dirtyL := by
  rw [ndAt_updNd]
  by_cases h : t.validP p ∧ q = p
  · obtain ⟨hv, hq⟩ := h
    subst hq
    simp [hv, hg]
  · simp [h]

theorem removed_updNd_pres (t : Tree) (p : Path) (g : Nd → Nd)
    (hg : ∀ n, (g n).removedL = n.removedL) (q : Path) :
    ((t.updNd p g).ndAt q).removedL = (t.ndAt q).removedL := by
  rw [ndAt_updNd]
  by_cases h : t.validP p ∧ q = p
  · obtain ⟨hv, hq⟩ := h
    subst hq
    simp [hv, hg]
  · simp [h]

/-- `changePropertyInternal` never touches any visibility index. -/
theorem visAt_changeInternal (t : Tree) (p : Path) (d : Nat) (v : Int)
    (q : Path) (e : Nat) :
    (t.changePropertyInternal p d v).visAt q e = t.visAt q e := by
  rw [Tree.changePropertyInternal]
  cases hl : lookupA ((t.getOrConstructAt p d).ndAt p).recs d with
  | none => exact visAt_getOrConstructAt t p d q e
  | some r =>
    simp only []
    split
    · rw [visAt_updNd_pres _ _ _ (fun n => setDirtyNd_vis n d),
        visAt_updNd_pres _ _
          (fun n => { n with recs := insertA n.recs d { r with prop := v } })
          (fun n => rfl),
        visAt_getOrConstructAt]
    · exact visAt_getOrConstructAt t p d q e

theorem owns_updNd_off (t : Tree) (p : Path) (g : Nd → Nd) (q : Path) (e : Nat)
    (h : q ≠ p) : (t.updNd p g).owns q e = t.owns q e := by
  rw [Tree.owns, Tree.owns, ndAt_updNd_ne t p g q h]

theorem owns_changeInternal_other (t : Tree) (p : Path) (d : Nat) (v : Int)
    (q : Path) (e : Nat) (h : ¬ (q = p ∧ e = d)) :
    (t.changePropertyInternal p d v).owns q e = t.owns q e := by
  rw [Tree.changePropertyInternal]
  cases hl : lookupA ((t.getOrConstructAt p d).ndAt p).recs d with
  | none => exact owns_getOrConstructAt_other t p d q e h
  | some r =>
    simp only []
    split
    · by_cases he : e = d
      · subst he
        have hq : q ≠ p := fun hqp => h ⟨hqp, rfl⟩
        rw [owns_updNd_off _ _ _ _ _ hq, owns_updNd_off _ _ _ _ _ hq]
        exact owns_getOrConstructAt_other t p e q e h
      · rw [owns_updNd_pres _ _ _ e (fun n => by rw [ownsNd, ownsNd, setDirtyNd_recs]),
          owns_updNd_pres _ _ _ e
            (fun n => by rw [ownsNd, ownsNd, lookupA_insertA_ne _ _ _ _ he]),
          owns_getOrConstructAt_other t p d q e h]
    · exact owns_getOrConstructAt_other t p d q e h

theorem owns_changeInternal_self (t : Tree) (p : Path) (d : Nat) (v : Int)
    (hv : t.validP p) : (t.changePropertyInternal p d v).owns p d = true := by
  rw [Tree.changePropertyInternal]
  cases hl : lookupA ((t.getOrConstructAt p d).ndAt p).recs d with
  | none => exact owns_getOrConstructAt_self t p d hv
  | some r =>
    simp only []
    split
    · have hv2 : (t.getOrConstructAt p d).validP p := by
        rw [validP_getOrConstructAt]; exact hv
      have hv3 : ((t.getOrConstructAt p d).updNd p
          (fun n => { n with recs := insertA n.recs d { r with prop := v } })).validP p := by
        rw [validP_updNd]; exact hv2
      rw [Tree.owns, ndAt_updNd_self _ _ _ hv3, ndAt_updNd_self _ _ _ hv2]
      rw [ownsNd, setDirtyNd_recs]
      simp [lookupA_insertA_self]
    · exact owns_getOrConstructAt_self t p d hv

theorem validP_changeInternal (t : Tree) (p : Path) (d : Nat) (v : Int) (q : Path) :
    (t.changePropertyInternal p d v).validP q = t.validP q := by
  rw [Tree.changePropertyInternal]
  cases hl : lookupA ((t.getOrConstructAt p d).ndAt p).recs d with
  | none => exact validP_getOrConstructAt t p d q
  | some r =>
    simp only []
    split
    · rw [validP_updNd, validP_updNd, validP_getOrConstructAt]
    · exact validP_getOrConstructAt t p d q

theorem removed_changeInternal (t : Tree) (p : Path) (d : Nat) (v : Int) (q : Path) :
    ((t.changePropertyInternal p d v).ndAt q).removedL = (t.ndAt q).removedL := by
  rw [Tree.changePropertyInternal]
  cases hl : lookupA ((t.getOrConstructAt p d).ndAt p).recs d with
  | none => exact removed_getOrConstructAt t p d q
  | some r =>
    simp only []
    split
    · rw [removed_updNd_pres _ _ _ (fun n => setDirtyNd_removed n d),
        removed_updNd_pres _ _
          (fun n => { n with recs := insertA n.recs d { r with prop := v } })
          (fun n => rfl),
        removed_getOrConstructAt]
    · exact removed_getOrConstructAt t p d q

/-- `touchPropertyInternal` changes at most the dirty list of its
target. -/
theorem visAt_touchInternal (t : Tree) (p : Path) (d : Nat) (q : Path) (e : Nat) :
    (t.touchPropertyInternal p d).visAt q e = t.visAt q e := by
  rw [Tree.touchPropertyInternal]
  cases hl : lookupA (t.ndAt p).recs d with
  | none => rfl
  | some r => exact visAt_updNd_pres t p _ (fun n => setDirtyNd_vis n d) q e

theorem owns_touchInternal (t : Tree) (p : Path) (d : Nat) (q : Path) (e : Nat) :
    (t.touchPropertyInternal p d).owns q e = t.owns q e := by
  rw [Tree.touchPropertyInternal]
  cases hl : lookupA (t.ndAt p).recs d with
  | none => rfl
  | some r =>
    exact owns_updNd_pres t p _ e (fun n => by rw [ownsNd, ownsNd, setDirtyNd_recs]) q

theorem validP_touchInternal (t : Tree) (p : Path) (d : Nat) (q : Path) :
    (t.touchPropertyInternal p d).validP q = t.validP q := by
  rw [Tree.touchPropertyInternal]
  cases hl : lookupA (t.ndAt p).recs d with
  | none => rfl
  | some r => exact validP_updNd t p _ q

/-- `addSignals` (the record edit of migrating connected signals)
changes nothing but the record's connected list. -/
theorem visAt_addSignals (t : Tree) (q0 : Path) (d : Nat) (ss : List (Path × Nat))
    (q : Path) (e : Nat) : (t.addSignals q0 d ss).visAt q e = t.visAt q e := by
  rw [Tree.addSignals]
  refine visAt_updNd_pres t q0 _ (fun n => ?_) q e
  cases hl : lookupA n.recs d with
  | none => rfl
  | some r => rfl

theorem owns_addSignals (t : Tree) (q0 : Path) (d : Nat) (ss : List (Path × Nat))
    (q : Path) (e : Nat) : (t.addSignals q0 d ss).owns q e = t.owns q e := by
  rw [Tree.addSignals]
  refine owns_updNd_pres t q0 _ e (fun n => ?_) q
  cases hl : lookupA n.recs d with
  | none => rfl
  | some r =>
    by_cases he : e = d
    · subst he
      simp [ownsNd, hl, lookupA_insertA_self]
    · simp [ownsNd, lookupA_insertA_ne _ _ _ _ he]

theorem validP_addSignals (t : Tree) (q0 : Path) (d : Nat) (ss : List (Path × Nat))
    (q : Path) : (t.addSignals q0 d ss).validP q = t.validP q := by
  rw [Tree.addSignals]
  exact validP_updNd t q0 _ q

theorem ownsNd_congr (n1 n2 : Nd) (e : Nat) (h : n1.recs = n2.recs) :
    ownsNd n1 e = ownsNd n2 e := by
  rw [ownsNd, ownsNd, h]

/-- `setParentContainerForProperty` leaves records, dirty lists, signal
maps and removed queues of every node unchanged. -/
theorem fields_updAt_spcfp (t : Tree) (p : Path) (d : Nat) (c : Option Path)
    (q : Path) :
    ((t.updAt p (spcfp d c)).ndAt q).recs = (t.ndAt q).recs ∧
      ((t.updAt p (spcfp d c)).ndAt q).dirtyL = (t.ndAt q).dirtyL ∧
      ((t.updAt p (spcfp d c)).ndAt q).removedL = (t.ndAt q).removedL ∧
      ((t.updAt p (spcfp d c)).ndAt q).sigs = (t.ndAt q).sigs := by
  cases hs : t.sub? p with
  | none => rw [updAt_invalid t p _ hs]; exact ⟨rfl, rfl, rfl, rfl⟩
  | some s =>
    by_cases hpre : p <+: q
    · obtain ⟨rel, hrel⟩ := hpre
      subst hrel
      have h1 : (t.updAt p (spcfp d c)).ndAt (p ++ rel) = (spcfp d c s).ndAt rel := by
        rw [Tree.ndAt, sub?_updAt_ext t p _ s hs rel, Tree.ndAt]
      rw [h1, ndAt_append t p s hs rel]
      obtain ⟨h2, h3, h4, h5⟩ := ndAt_spcfp_fields d c rel s
      exact ⟨h2, h4, h5, h3⟩
    · rw [ndAt_updAt_not_ext t p _ q hpre]
      exact ⟨rfl, rfl, rfl, rfl⟩

theorem owns_updAt_spcfp (t : Tree) (p : Path) (d : Nat) (c : Option Path)
    (q : Path) (e : Nat) : (t.updAt p (spcfp d c)).owns q e = t.owns q e := by
  rw [Tree.owns, Tree.owns]
  exact ownsNd_congr _ _ e (fields_updAt_spcfp t p d c q).1

theorem valueAt_updAt_spcfp (t : Tree) (p : Path) (d : Nat) (c : Option Path)
    (q : Path) (e : Nat) : (t.updAt p (spcfp d c)).valueAt q e = t.valueAt q e := by
  rw [Tree.valueAt, Tree.valueAt, (fields_updAt_spcfp t p d c q).1]

theorem visAt_updAt_spcfp_ne (t : Tree) (p : Path) (d : Nat) (c : Option Path)
    (q : Path) (e : Nat) (he : e ≠ d) :
    (t.updAt p (spcfp d c)).visAt q e = t.visAt q e := by
  cases hs : t.sub? p with
  | none => rw [updAt_invalid t p _ hs]
  | some s =>
    by_cases hpre : p <+: q
    · obtain ⟨rel, hrel⟩ := hpre
      subst hrel
      have h1 : (t.updAt p (spcfp d c)).ndAt (p ++ rel) = (spcfp d c s).ndAt rel := by
        rw [Tree.ndAt, sub?_updAt_ext t p _ s hs rel, Tree.ndAt]
      rw [Tree.visAt, Tree.visAt, h1, ndAt_append t p s hs rel, ndAt_spcfp]
      by_cases hf : freeB d s rel
      · rw [if_pos hf, vis_setVisNd_ne _ _ _ _ he]
      · rw [if_neg hf]
    · rw [Tree.visAt, Tree.visAt, ndAt_updAt_not_ext t p _ q hpre]

theorem visAt_updAt_spcfp_out (t : Tree) (p : Path) (d : Nat) (c : Option Path)
    (q : Path) (e : Nat) (h : ¬ p <+: q) :
    (t.updAt p (spcfp d c)).visAt q e = t.visAt q e := by
  rw [Tree.visAt, Tree.visAt, ndAt_updAt_not_ext t p _ q h]

theorem visAt_updAt_spcfp_free (t : Tree) (p : Path) (d : Nat) (c : Option Path)
    (s : Tree) (hs : t.sub? p = some s) (rel : Path) (hf : freeB d s rel = true) :
    (t.updAt p (spcfp d c)).visAt (p ++ rel) d = c := by
  have h1 : (t.updAt p (spcfp d c)).ndAt (p ++ rel) = (spcfp d c s).ndAt rel := by
    rw [Tree.ndAt, sub?_updAt_ext t p _ s hs rel, Tree.ndAt]
  rw [Tree.visAt, h1, ndAt_spcfp, if_pos hf]
  cases c with
  | some x => simp [setVisNd, lookupA_insertA_self]
  | none => simp [setVisNd, lookupA_eraseA_self]

theorem visAt_updAt_spcfp_notfree (t : Tree) (p : Path) (d : Nat) (c : Option Path)
    (s : Tree) (hs : t.sub? p = some s) (rel : Path) (hf : freeB d s rel = false) :
    (t.updAt p (spcfp d c)).visAt (p ++ rel) d = t.visAt (p ++ rel) d := by
  have h1 : (t.updAt p (spcfp d c)).ndAt (p ++ rel) = (spcfp d c s).ndAt rel := by
    rw [Tree.ndAt, sub?_updAt_ext t p _ s hs rel, Tree.ndAt]
  rw [Tree.visAt, Tree.visAt, h1, ndAt_spcfp, if_neg (by simp [hf]),
    ndAt_append t p s hs rel]

theorem valueAt_getOrConstructAt_other (t : Tree) (p : Path) (d : Nat) (q : Path)
    (e : Nat) (h : ¬ (q = p ∧ e = d)) :
    (t.getOrConstructAt p d).valueAt q e = t.valueAt q e := by
  rw [Tree.valueAt, Tree.valueAt, Tree.getOrConstructAt, ndAt_updNd]
  by_cases hq : t.validP p ∧ q = p
  · obtain ⟨hv, hqp⟩ := hq
    subst hqp
    have he : e ≠ d := fun hed => h ⟨rfl, hed⟩
    cases hl : lookupA (t.ndAt q).recs d with
    | none => simp [hv, getOrConstructNd, hl, lookupA_insertA_ne _ _ _ _ he]
    | some r => simp [hv, getOrConstructNd, hl]
  · simp [hq]

theorem valueAt_updateAllSignals_other (t : Tree) (p : Path) (d : Nat) (q : Path)
    (e : Nat) (h : ¬ (q = p ∧ e = d)) :
    (t.updateAllSignals p d).valueAt q e = t.valueAt q e := by
  rw [(updateAllSignals_effects t p d q e).2.2.2.2, valueAt_getOrConstructAt_other t p d q e h]

theorem valueAt_updateAllSignals_of_owns (t : Tree) (p : Path) (d : Nat) (q : Path)
    (e : Nat) (h : t.owns q e = true) :
    (t.updateAllSignals p d).valueAt q e = t.valueAt q e := by
  by_cases hq : q = p ∧ e = d
  · obtain ⟨hqp, hed⟩ := hq
    subst hqp; subst hed
    rw [(updateAllSignals_effects t q e q e).2.2.2.2, getOrConstructAt_of_owns t q e h]
  · exact valueAt_updateAllSignals_other t p d q e hq

/-- Effects of the parent-owner signal refresh step of `setProperty`. -/
theorem visAt_parentSignalRefresh (t : Tree) (p : Path) (d : Nat) (q : Path)
    (e : Nat) : (t.parentSignalRefresh p d).visAt q e = t.visAt q e := by
  rw [Tree.parentSignalRefresh]
  cases parentOf p with
  | none => rfl
  | some pp =>
    simp only []
    cases t.getOwning pp d with
    | none => rfl
    | some q0 => exact visAt_updateAllSignals t q0 d q e

theorem dirty_parentSignalRefresh (t : Tree) (p : Path) (d : Nat) (q : Path) :
    ((t.parentSignalRefresh p d).ndAt q).dirtyL = (t.ndAt q).dirtyL := by
  rw [Tree.parentSignalRefresh]
  cases parentOf p with
  | none => rfl
  | some pp =>
    simp only []
    cases t.getOwning pp d with
    | none => rfl
    | some q0 => exact dirty_updateAllSignals t q0 d q

theorem removed_parentSignalRefresh (t : Tree) (p : Path) (d : Nat) (q : Path) :
    ((t.parentSignalRefresh p d).ndAt q).removedL = (t.ndAt q).removedL := by
  rw [Tree.parentSignalRefresh]
  cases parentOf p with
  | none => rfl
  | some pp =>
    simp only []
    cases t.getOwning pp d with
    | none => rfl
    | some q0 => exact removed_updateAllSignals t q0 d q

theorem validP_parentSignalRefresh (t : Tree) (p : Path) (d : Nat) (q : Path) :
    (t.parentSignalRefresh p d).validP q = t.validP q := by
  rw [Tree.parentSignalRefresh]
  cases parentOf p with
  | none => rfl
  | some pp =>
    simp only []
    cases t.getOwning pp d with
    | none => rfl
    | some q0 => exact validP_updateAllSignals t q0 d q

theorem owns_parentSignalRefresh (t : Tree) (p : Path) (d : Nat)
    (hq0 : ∀ pp q0, parentOf p = some pp → t.getOwning pp d = some q0 →
      t.owns q0 d = true) (q : Path) (e : Nat) :
    (t.parentSignalRefresh p d).owns q e = t.owns q e := by
  rw [Tree.parentSignalRefresh]
  cases hpp : parentOf p with
  | none => rfl
  | some pp =>
    simp only []
    cases hq : t.getOwning pp d with
    | none => rfl
    | some q0 =>
      by_cases hqe : q = q0 ∧ e = d
      · obtain ⟨h1, h2⟩ := hqe
        rw [h1, h2]
        rw [owns_updateAllSignals_of_owns t q0 d q0 d (hq0 pp q0 hpp hq),
          hq0 pp q0 hpp hq]
      · exact owns_updateAllSignals_other t q0 d q e hqe

theorem valueAt_parentSignalRefresh_of_owns (t : Tree) (p : Path) (d : Nat)
    (q : Path) (e : Nat) (h : t.owns q e = true) :
    (t.parentSignalRefresh p d).valueAt q e = t.valueAt q e := by
  rw [Tree.parentSignalRefresh]
  cases parentOf p with
  | none => rfl
  | some pp =>
    simp only []
    cases t.getOwning pp d with
    | none => rfl
    | some q0 => exact valueAt_updateAllSignals_of_owns t q0 d q e h

/-- The stored value after `changePropertyInternal` is the written
value. -/
theorem valueAt_changeInternal_self (t : Tree) (p : Path) (d : Nat) (v : Int)
    (hv : t.validP p) : (t.changePropertyInternal p d v).valueAt p d = some v := by
  rw [Tree.changePropertyInternal]
  have hv1 : (t.getOrConstructAt p d).validP p := by
    rw [validP_getOrConstructAt]; exact hv
  have ho1 : (t.getOrConstructAt p d).owns p d = true := owns_getOrConstructAt_self t p d hv
  cases hl : lookupA ((t.getOrConstructAt p d).ndAt p).recs d with
  | none =>
    rw [Tree.owns, ownsNd, hl] at ho1
    simp at ho1
  | some r =>
    simp only []
    split
    case isTrue hne =>
      have hv2 : ((t.getOrConstructAt p d).updNd p
          (fun n => { n with recs := insertA n.recs d { r with prop := v } })).validP p := by
        rw [validP_updNd]; exact hv1
      rw [Tree.valueAt, ndAt_updNd_self _ _ _ hv2, ndAt_updNd_self _ _ _ hv1,
        setDirtyNd_recs]
      simp [lookupA_insertA_self]
    case isFalse hne =>
      rw [Tree.valueAt, hl]
      simp only [ne_eq, not_not] at hne
      rw [hne]
      rfl

/-- Summary facts about `setProperty`. -/
theorem validP_setProperty (t : Tree) (p : Path) (d : Nat) (v : Int) (q : Path) :
    (t.setProperty p d v).validP q = t.validP q := by
  rw [Tree.setProperty, validP_changeInternal, validP_parentSignalRefresh,
    validP_updateAllSignals, validP_updAt_spcfp]

theorem owns_setProperty_self (t : Tree) (p : Path) (d : Nat) (v : Int)
    (hv : t.validP p) : (t.setProperty p d v).owns p d = true := by
  rw [Tree.setProperty]
  refine owns_changeInternal_self _ p d v ?_
  rw [validP_parentSignalRefresh, validP_updateAllSignals, validP_updAt_spcfp]
  exact hv

theorem valueAt_setProperty_self (t : Tree) (p : Path) (d : Nat) (v : Int)
    (hv : t.validP p) : (t.setProperty p d v).valueAt p d = some v := by
  rw [Tree.setProperty]
  refine valueAt_changeInternal_self _ p d v ?_
  rw [validP_parentSignalRefresh, validP_updateAllSignals, validP_updAt_spcfp]
  exact hv

/-- Redundant write: `setProperty` with the value already stored at an
owned record marks nothing dirty and queues nothing, anywhere. -/
theorem dirty_setProperty_redundant (t : Tree) (p : Path) (d : Nat) (v : Int)
    (howns : t.owns p d = true) (hval : t.valueAt p d = some v) (q : Path) :
    ((t.setProperty p d v).ndAt q).dirtyL = (t.ndAt q).dirtyL ∧
      ((t.setProperty p d v).ndAt q).removedL = (t.ndAt q).removedL := by
  rw [Tree.setProperty]
  have h1o : (t.updAt p (spcfp d (some p))).owns p d = true := by
    rw [owns_updAt_spcfp]; exact howns
  have h1v : (t.updAt p (spcfp d (some p))).valueAt p d = some v := by
    rw [valueAt_updAt_spcfp]; exact hval
  have h2o : ((t.updAt p (spcfp d (some p))).updateAllSignals p d).owns p d = true :=
    owns_updateAllSignals_of_owns _ p d p d h1o
  have h2v : ((t.updAt p (spcfp d (some p))).updateAllSignals p d).valueAt p d = some v := by
    rw [valueAt_updateAllSignals_of_owns _ p d p d h1o]; exact h1v
  have h3o : (((t.updAt p (spcfp d (some p))).updateAllSignals p d).parentSignalRefresh p d).owns
      p d = true := by
    rw [Tree.parentSignalRefresh]
    cases parentOf p with
    | none => exact h2o
    | some pp =>
      simp only []
      cases ((t.updAt p (spcfp d (some p))).updateAllSignals p d).getOwning pp d with
      | none => exact h2o
      | some q0 => exact owns_updateAllSignals_of_owns _ q0 d p d h2o
  have h3v : (((t.updAt p (spcfp d (some p))).updateAllSignals p d).parentSignalRefresh p d).valueAt
      p d = some v := by
    rw [valueAt_parentSignalRefresh_of_owns _ p d p d h2o]; exact h2v
  rw [changeInternal_of_eq _ p d v h3v]
  constructor
  · rw [dirty_parentSignalRefresh, dirty_updateAllSignals,
      (fields_updAt_spcfp t p d (some p) q).2.1]
  · rw [removed_parentSignalRefresh, removed_updateAllSignals,
      (fields_updAt_spcfp t p d (some p) q).2.2.1]

/-! Invariant preservation: `setProperty`. -/

/-- A visibility-index entry can only be observed at a valid path. -/
theorem visAt_some_validP (t : Tree) (p : Path) (d : Nat) (q0 : Path)
    (h : t.visAt p d = some q0) : t.validP p = true := by
  cases hs : t.sub? p with
  | some s => rw [Tree.validP, hs]; rfl
  | none =>
    rw [Tree.visAt, Tree.ndAt, hs] at h
    simp [lookupA, default] at h

/-- Basic facts about `m_parent`. -/
theorem parentOf_spec (p : Path) (pp : Path) (h : parentOf p = some pp) :
    p ≠ [] ∧ pp = p.dropLast ∧ ¬ p <+: pp := by
  cases p with
  | nil => simp [parentOf] at h
  | cons i r =>
    have h2 : pp = (i :: r).dropLast := by
      simp [parentOf] at h
      exact h.symm
    refine ⟨by simp, h2, ?_⟩
    rw [h2]
    intro hc
    have h1 := hc.length_le
    rw [List.length_dropLast] at h1
    simp only [List.length_cons] at h1
    omega

/-- Under the invariant, `getOwningPropertyContainer` resolves an
inclusive-ancestor owner. -/
theorem getOwning_owns (t : Tree) (hInv : Inv t) (pp : Path) (d : Nat) (q0 : Path)
    (hvp : t.validP pp = true) (hq : t.getOwning pp d = some q0) :
    t.owns q0 d = true ∧ q0 <+: pp := by
  rw [Tree.getOwning] at hq
  by_cases ho : t.owns pp d = true
  · simp only [ho, if_true] at hq
    cases hq
    exact ⟨ho, List.prefix_refl _⟩
  · have ho2 : t.owns pp d = false := by revert ho; cases t.owns pp d <;> simp
    simp only [ho2, Bool.false_eq_true, if_false] at hq
    rw [hInv pp d hvp] at hq
    exact nearestOwner_owns t d pp q0 hq

/-- Pointwise ownership after `setProperty`: the target now owns the
descriptor, and no other record appears or disappears.  The invariant
is needed to resolve the previous-owner signal-refresh stage. -/
theorem owns_setProperty (t : Tree) (hInv : Inv t) (p : Path) (d : Nat) (v : Int)
    (hv : t.validP p = true) (q : Path) (e : Nat) :
    (t.setProperty p d v).owns q e =
      if q = p ∧ e = d then true else t.owns q e := by
  have hv1 : (t.updAt p (spcfp d (some p))).validP p = true := by
    rw [validP_updAt_spcfp]; exact hv
  have hO2 : ∀ y f, ((t.updAt p (spcfp d (some p))).updateAllSignals p d).owns y f =
      if y = p ∧ f = d then true else t.owns y f := by
    intro y f
    by_cases hyf : y = p ∧ f = d
    · obtain ⟨h1, h2⟩ := hyf
      rw [h1, h2, if_pos ⟨rfl, rfl⟩]
      exact owns_updateAllSignals_self _ p d hv1
    · rw [if_neg hyf, owns_updateAllSignals_other _ p d y f hyf, owns_updAt_spcfp]
  have hq0 : ∀ pp q0, parentOf p = some pp →
      ((t.updAt p (spcfp d (some p))).updateAllSignals p d).getOwning pp d = some q0 →
      ((t.updAt p (spcfp d (some p))).updateAllSignals p d).owns q0 d = true := by
    intro pp q0 hpp hq
    obtain ⟨hne, hdp, hnpre⟩ := parentOf_spec p pp hpp
    rw [Tree.getOwning] at hq
    by_cases ho : ((t.updAt p (spcfp d (some p))).updateAllSignals p d).owns pp d = true
    · simp only [ho, if_true] at hq
      cases hq
      exact ho
    · have ho2 : ((t.updAt p (spcfp d (some p))).updateAllSignals p d).owns pp d = false := by
        revert ho
        cases ((t.updAt p (spcfp d (some p))).updateAllSignals p d).owns pp d <;> simp
      simp only [ho2, Bool.false_eq_true, if_false] at hq
      rw [visAt_updateAllSignals, visAt_updAt_spcfp_out t p d (some p) pp d hnpre] at hq
      have hvpp : t.validP pp = true := by
        refine validP_prefix t pp p ?_ hv
        rw [hdp]
        exact List.dropLast_prefix p
      rw [hInv pp d hvpp] at hq
      obtain ⟨how, _⟩ := nearestOwner_owns t d pp q0 hq
      rw [hO2 q0 d]
      by_cases hc : q0 = p ∧ d = d
      · rw [if_pos hc]
      · rw [if_neg hc]
        exact how
  rw [Tree.setProperty]
  by_cases hqe : q = p ∧ e = d
  · obtain ⟨h1, h2⟩ := hqe
    rw [h1, h2, if_pos ⟨rfl, rfl⟩]
    refine owns_changeInternal_self _ p d v ?_
    rw [validP_parentSignalRefresh, validP_updateAllSignals, validP_updAt_spcfp]
    exact hv
  · rw [if_neg hqe, owns_changeInternal_other _ p d v q e hqe,
      owns_parentSignalRefresh _ p d hq0 q e, hO2 q e, if_neg hqe]

/-- The visibility index after `setProperty` is written entirely by its
first stage (`setParentContainerForProperty` over the uncovered
subtree); the signal-refresh and value-store stages leave it alone. -/
theorem visAt_setProperty (t : Tree) (p : Path) (d : Nat) (v : Int) (q : Path)
    (e : Nat) :
    (t.setProperty p d v).visAt q e = (t.updAt p (spcfp d (some p))).visAt q e := by
  rw [Tree.setProperty, visAt_changeInternal, visAt_parentSignalRefresh,
    visAt_updateAllSignals]

/-- `setProperty` preserves the visibility-index invariant. -/
theorem Inv_setProperty (t : Tree) (hInv : Inv t) (p : Path) (d : Nat) (v : Int)
    (hv : t.validP p = true) : Inv (t.setProperty p d v) := by
  intro q e hvq
  have hvq0 : t.validP q = true := by
    rw [← validP_setProperty t p d v q]
    exact hvq
  have hO := owns_setProperty t hInv p d v hv
  have hOd : ∀ y, y ≠ p → (t.setProperty p d v).owns y d = t.owns y d := by
    intro y hy
    rw [hO y d, if_neg (fun hc => hy hc.1)]
  have hOp : (t.setProperty p d v).owns p d = true := by
    rw [hO p d, if_pos ⟨rfl, rfl⟩]
  by_cases he : e = d
  · subst he
    by_cases hpre : p <+: q
    · obtain ⟨rel, hrel⟩ := hpre
      subst hrel
      cases hs : t.sub? p with
      | none => rw [Tree.validP, hs] at hv; simp at hv
      | some s =>
        have hsv : s.validP rel = true := by
          rw [← validP_append t p s hs rel]
          exact hvq0
        have hsub : (s.sub? rel).isSome = true := by
          rw [← Tree.validP]
          exact hsv
        by_cases hf : freeB e s rel = true
        · rw [visAt_setProperty, visAt_updAt_spcfp_free t p e (some p) s hs rel hf]
          refine (nearestOwner_insert t (t.setProperty p e v) e p hOd hOp rel ?_).symm
          intro r0 hr0 hne
          have h1 := (freeB_iff e rel s hsub).mp hf r0 hr0 hne
          rw [Tree.owns, ndAt_append t p s hs r0]
          exact h1
        · have hf2 : freeB e s rel = false := by
            revert hf; cases freeB e s rel <;> simp
          rw [visAt_setProperty, visAt_updAt_spcfp_notfree t p e (some p) s hs rel hf2,
            hInv _ e hvq0]
          have hnall : ¬ ∀ r0, r0 <+: rel → r0 ≠ [] → ownsNd (s.ndAt r0) e = false := by
            intro hall
            have h1 := (freeB_iff e rel s hsub).mpr hall
            rw [hf2] at h1
            exact Bool.noConfusion h1
          push_neg at hnall
          obtain ⟨r0, hr0, hne, hho⟩ := hnall
          have hho2 : t.owns (p ++ r0) e = true := by
            rw [Tree.owns, ndAt_append t p s hs r0]
            revert hho
            cases ownsNd (s.ndAt r0) e <;> simp
          exact (nearestOwner_agree_above t (t.setProperty p e v) e p hOd rel
            ⟨r0, hr0, hne, hho2⟩).symm
    · rw [visAt_setProperty, visAt_updAt_spcfp_out t p e (some p) q e hpre,
        hInv q e hvq0]
      refine (nearestOwner_congr t (t.setProperty p e v) e q ?_).symm
      intro y hy
      refine hOd y ?_
      intro hyp
      exact hpre (hyp ▸ hy)
  · have hOe : ∀ y, (t.setProperty p d v).owns y e = t.owns y e := by
      intro y
      rw [hO y e, if_neg (fun hc => he hc.2)]
    rw [visAt_setProperty, visAt_updAt_spcfp_ne t p d (some p) q e he, hInv q e hvq0]
    exact (nearestOwner_congr t (t.setProperty p d v) e q (fun y _ => hOe y)).symm

/-- An owner lives at a valid path. -/
theorem validP_of_owns (t : Tree) (q : Path) (d : Nat) (h : t.owns q d = true) :
    t.validP q = true := by
  by_cases hc : t.validP q = true
  · exact hc
  · rw [owns_invalid t q d hc] at h
    exact Bool.noConfusion h

/-- `changeProperty` preserves the visibility-index invariant: it
dispatches to the owner the index resolves and rewrites a stored value
there, leaving ownership and every index entry alone. -/
theorem Inv_changeProperty (t : Tree) (hInv : Inv t) (p : Path) (d : Nat)
    (v : Int) : Inv (t.changeProperty p d v) := by
  rw [Tree.changeProperty]
  cases hvis : t.visAt p d with
  | none => exact hInv
  | some q0 =>
    simp only []
    have hvp : t.validP p = true := visAt_some_validP t p d q0 hvis
    have hq0 : t.owns q0 d = true := by
      rw [hInv p d hvp] at hvis
      exact (nearestOwner_owns t d p q0 hvis).1
    have hvq0 : t.validP q0 = true := validP_of_owns t q0 d hq0
    have hOwns : ∀ y f, (t.changePropertyInternal q0 d v).owns y f = t.owns y f := by
      intro y f
      by_cases hyf : y = q0 ∧ f = d
      · obtain ⟨h1, h2⟩ := hyf
        rw [h1, h2, owns_changeInternal_self t q0 d v hvq0, hq0]
      · exact owns_changeInternal_other t q0 d v y f hyf
    intro q e hvq
    have hvq2 : t.validP q = true := by
      rw [← validP_changeInternal t q0 d v q]
      exact hvq
    rw [visAt_changeInternal, hInv q e hvq2]
    exact (nearestOwner_congr t (t.changePropertyInternal q0 d v) e q
      (fun y _ => hOwns y e)).symm

/-! Invariant preservation: `removeProperty`. -/

theorem nearestOwner_self_of_owns (t : Tree) (d : Nat) (x : Path)
    (h : t.owns x d = true) : t.nearestOwner x d = some x := by
  rcases List.eq_nil_or_concat x with rfl | ⟨l, a, rfl⟩
  · rw [nearestOwner_nil, if_pos h]
  · rw [List.concat_eq_append] at h ⊢
    rw [nearestOwner_concat, if_pos h]

/-- Erasing a record: the node stops owning the descriptor; nothing else
changes hands. -/
theorem owns_updNd_erase (t : Tree) (q0 : Path) (d : Nat) (hv : t.validP q0 = true)
    (q : Path) (e : Nat) :
    (t.updNd q0 (fun n => { n with recs := eraseA n.recs d })).owns q e =
      if q = q0 ∧ e = d then false else t.owns q e := by
  rw [Tree.owns, ndAt_updNd]
  by_cases hq : q = q0
  · subst hq
    rw [if_pos ⟨hv, rfl⟩]
    by_cases he : e = d
    · subst he
      rw [if_pos ⟨rfl, rfl⟩]
      show (lookupA (eraseA (t.ndAt q).recs e) e).isSome = false
      rw [lookupA_eraseA_self]
      rfl
    · rw [if_neg (fun hc => he hc.2)]
      show (lookupA (eraseA (t.ndAt q).recs d) e).isSome = t.owns q e
      rw [lookupA_eraseA_ne _ _ _ he, Tree.owns, ownsNd]
  · rw [if_neg (fun hc => hq hc.2), if_neg (fun hc => hq hc.1), Tree.owns]

/-- `removePropertyInternal` with an existing record factors as a final
record-erase applied to a tree whose ownership, validity and visibility
index agree with the first (`setParentContainerForProperty`) stage: the
signal-migration middle stage touches neither. -/
theorem removeInternal_eq (t : Tree) (q0 : Path) (d : Nat) (dflt : Int) (r : Rec)
    (hl : lookupA (t.ndAt q0).recs d = some r) :
    ∃ t2 : Tree,
      t.removePropertyInternal q0 d dflt =
        t2.updNd q0 (fun n => { n with recs := eraseA n.recs d }) ∧
      (∀ y f, t2.owns y f = t.owns y f) ∧
      (∀ y, t2.validP y = t.validP y) ∧
      (∀ y f, t2.visAt y f =
        (t.updAt q0 (spcfp d (match parentOf q0 with
          | none => none
          | some pp => t.getOwning pp d))).visAt y f) := by
  simp only [Tree.removePropertyInternal, hl]
  cases hpp : parentOf q0 with
  | none =>
    simp only []
    by_cases hcn : r.conn ≠ []
    · rw [if_pos hcn]
      refine ⟨_, rfl, ?_, ?_, ?_⟩
      · intro y f
        rw [owns_updNd_pres _ _
          (fun n => { n with removedL := n.removedL ++ [(dflt, r.conn)] }) f
          (fun n => rfl), owns_updAt_spcfp]
      · intro y
        rw [validP_updNd, validP_updAt_spcfp]
      · intro y f
        rw [visAt_updNd_pres _ _
          (fun n => { n with removedL := n.removedL ++ [(dflt, r.conn)] })
          (fun n => rfl)]
    · rw [if_neg hcn]
      exact ⟨_, rfl, fun y f => owns_updAt_spcfp t q0 d none y f,
        fun y => validP_updAt_spcfp t q0 d none y, fun y f => rfl⟩
  | some pp =>
    simp only []
    cases how : t.getOwning pp d with
    | none =>
      simp only []
      by_cases hcn : r.conn ≠ []
      · rw [if_pos hcn]
        refine ⟨_, rfl, ?_, ?_, ?_⟩
        · intro y f
          rw [owns_updNd_pres _ _
            (fun n => { n with removedL := n.removedL ++ [(dflt, r.conn)] }) f
            (fun n => rfl), owns_updAt_spcfp]
        · intro y
          rw [validP_updNd, validP_updAt_spcfp]
        · intro y f
          rw [visAt_updNd_pres _ _
            (fun n => { n with removedL := n.removedL ++ [(dflt, r.conn)] })
            (fun n => rfl)]
      · rw [if_neg hcn]
        exact ⟨_, rfl, fun y f => owns_updAt_spcfp t q0 d none y f,
          fun y => validP_updAt_spcfp t q0 d none y, fun y f => rfl⟩
    | some nc =>
      simp only []
      cases hnr : lookupA
          (((t.updAt q0 (spcfp d (some nc))).addSignals nc d r.conn).ndAt nc).recs d with
      | none =>
        simp only []
        refine ⟨_, rfl, ?_, ?_, ?_⟩
        · intro y f
          rw [owns_addSignals, owns_updAt_spcfp]
        · intro y
          rw [validP_addSignals, validP_updAt_spcfp]
        · intro y f
          rw [visAt_addSignals]
      | some nr =>
        simp only []
        by_cases hne : nr.prop ≠ r.prop
        · rw [if_pos hne]
          refine ⟨_, rfl, ?_, ?_, ?_⟩
          · intro y f
            rw [owns_touchInternal, owns_addSignals, owns_updAt_spcfp]
          · intro y
            rw [validP_touchInternal, validP_addSignals, validP_updAt_spcfp]
          · intro y f
            rw [visAt_touchInternal, visAt_addSignals]
        · rw [if_neg hne]
          refine ⟨_, rfl, ?_, ?_, ?_⟩
          · intro y f
            rw [owns_addSignals, owns_updAt_spcfp]
          · intro y
            rw [validP_addSignals, validP_updAt_spcfp]
          · intro y f
            rw [visAt_addSignals]

theorem owns_removeInternal (t : Tree) (q0 : Path) (d : Nat) (dflt : Int) (r : Rec)
    (hl : lookupA (t.ndAt q0).recs d = some r) (q : Path) (e : Nat) :
    (t.removePropertyInternal q0 d dflt).owns q e =
      if q = q0 ∧ e = d then false else t.owns q e := by
  obtain ⟨t2, heq, ho, hv, _⟩ := removeInternal_eq t q0 d dflt r hl
  have hv0 : t2.validP q0 = true := by
    rw [hv]
    refine validP_of_owns t q0 d ?_
    rw [Tree.owns, ownsNd, hl]
    rfl
  rw [heq, owns_updNd_erase t2 q0 d hv0 q e]
  by_cases hc : q = q0 ∧ e = d
  · rw [if_pos hc, if_pos hc]
  · rw [if_neg hc, if_neg hc]
    exact ho q e

theorem validP_removeInternal (t : Tree) (q0 : Path) (d : Nat) (dflt : Int)
    (q : Path) : (t.removePropertyInternal q0 d dflt).validP q = t.validP q := by
  cases hl : lookupA (t.ndAt q0).recs d with
  | none => simp only [Tree.removePropertyInternal, hl]
  | some r =>
    obtain ⟨t2, heq, _, hv, _⟩ := removeInternal_eq t q0 d dflt r hl
    rw [heq, validP_updNd, hv]

theorem visAt_removeInternal (t : Tree) (q0 : Path) (d : Nat) (dflt : Int) (r : Rec)
    (hl : lookupA (t.ndAt q0).recs d = some r) (q : Path) (e : Nat) :
    (t.removePropertyInternal q0 d dflt).visAt q e =
      (t.updAt q0 (spcfp d (match parentOf q0 with
        | none => none
        | some pp => t.getOwning pp d))).visAt q e := by
  obtain ⟨t2, heq, _, _, hvis⟩ := removeInternal_eq t q0 d dflt r hl
  rw [heq, visAt_updNd_pres _ _ (fun n => { n with recs := eraseA n.recs d })
    (fun n => rfl)]
  exact hvis q e

/-- Under the invariant, the re-parenting target computed through
`m_parent` is the nearest owner strictly above the node. -/
theorem parent_getOwning_eq_nearestAbove (t : Tree) (hInv : Inv t) (q0 : Path)
    (d : Nat) (hv : t.validP q0 = true) :
    (match parentOf q0 with
      | none => none
      | some pp => t.getOwning pp d) = nearestAbove t q0 d := by
  cases q0 with
  | nil => rfl
  | cons i rr =>
    show t.getOwning ((i :: rr).dropLast) d = t.nearestOwner ((i :: rr).dropLast) d
    have hvpp : t.validP ((i :: rr).dropLast) = true :=
      validP_prefix t _ _ (List.dropLast_prefix _) hv
    rw [Tree.getOwning]
    by_cases ho : t.owns ((i :: rr).dropLast) d = true
    · simp only [ho, if_true]
      exact (nearestOwner_self_of_owns t d _ ho).symm
    · have ho2 : t.owns ((i :: rr).dropLast) d = false := by
        revert ho
        cases t.owns ((i :: rr).dropLast) d <;> simp
      simp only [ho2, Bool.false_eq_true, if_false]
      exact hInv _ d hvpp

/-- `removeProperty` preserves the visibility-index invariant. -/
theorem Inv_removeProperty (t : Tree) (hInv : Inv t) (p : Path) (d : Nat)
    (dflt : Int) : Inv (t.removeProperty p d dflt) := by
  rw [Tree.removeProperty]
  cases hvis : t.visAt p d with
  | none => exact hInv
  | some q0 =>
    simp only []
    have hvp : t.validP p = true := visAt_some_validP t p d q0 hvis
    have hno : t.nearestOwner p d = some q0 := by
      rw [← hInv p d hvp]
      exact hvis
    obtain ⟨hown, _⟩ := nearestOwner_owns t d p q0 hno
    have hvq0 : t.validP q0 = true := validP_of_owns t q0 d hown
    obtain ⟨r, hl⟩ : ∃ r, lookupA (t.ndAt q0).recs d = some r := by
      rw [Tree.owns, ownsNd] at hown
      cases hll : lookupA (t.ndAt q0).recs d with
      | none => rw [hll] at hown; simp at hown
      | some rr => exact ⟨rr, rfl⟩
    have hO := fun q e => owns_removeInternal t q0 d dflt r hl q e
    have hOd : ∀ y, y ≠ q0 →
        (t.removePropertyInternal q0 d dflt).owns y d = t.owns y d := by
      intro y hy
      rw [hO y d, if_neg (fun hc => hy hc.1)]
    have hOq0 : (t.removePropertyInternal q0 d dflt).owns q0 d = false := by
      rw [hO q0 d, if_pos ⟨rfl, rfl⟩]
    have hnewC := parent_getOwning_eq_nearestAbove t hInv q0 d hvq0
    intro q e hvq
    have hvq2 : t.validP q = true := by
      rw [← validP_removeInternal t q0 d dflt q]
      exact hvq
    rw [visAt_removeInternal t q0 d dflt r hl q e, hnewC]
    by_cases he : e = d
    · subst he
      by_cases hpre : q0 <+: q
      · obtain ⟨rel, hrel⟩ := hpre
        subst hrel
        cases hs : t.sub? q0 with
        | none => rw [Tree.validP, hs] at hvq0; simp at hvq0
        | some s =>
          have hsv : s.validP rel = true := by
            rw [← validP_append t q0 s hs rel]
            exact hvq2
          have hsub : (s.sub? rel).isSome = true := by
            rw [← Tree.validP]
            exact hsv
          by_cases hf : freeB e s rel = true
          · rw [visAt_updAt_spcfp_free t q0 e (nearestAbove t q0 e) s hs rel hf]
            refine (nearestOwner_erase t (t.removePropertyInternal q0 e dflt) e q0
              hOd hOq0 rel ?_).symm
            intro r0 hr0 hne
            have h1 := (freeB_iff e rel s hsub).mp hf r0 hr0 hne
            rw [Tree.owns, ndAt_append t q0 s hs r0]
            exact h1
          · have hf2 : freeB e s rel = false := by
              revert hf
              cases freeB e s rel <;> simp
            rw [visAt_updAt_spcfp_notfree t q0 e (nearestAbove t q0 e) s hs rel hf2,
              hInv _ e hvq2]
            have hnall : ¬ ∀ r0, r0 <+: rel → r0 ≠ [] →
                ownsNd (s.ndAt r0) e = false := by
              intro hall
              have h1 := (freeB_iff e rel s hsub).mpr hall
              rw [hf2] at h1
              exact Bool.noConfusion h1
            push_neg at hnall
            obtain ⟨r0, hr0, hne, hho⟩ := hnall
            have hho2 : t.owns (q0 ++ r0) e = true := by
              rw [Tree.owns, ndAt_append t q0 s hs r0]
              revert hho
              cases ownsNd (s.ndAt r0) e <;> simp
            exact (nearestOwner_agree_above t (t.removePropertyInternal q0 e dflt) e
              q0 hOd rel ⟨r0, hr0, hne, hho2⟩).symm
      · rw [visAt_updAt_spcfp_out t q0 e (nearestAbove t q0 e) q e hpre,
          hInv q e hvq2]
        refine (nearestOwner_congr t (t.removePropertyInternal q0 e dflt) e q ?_).symm
        intro y hy
        exact hOd y (fun hyq => hpre (hyq ▸ hy))
    · have hOe : ∀ y, (t.removePropertyInternal q0 d dflt).owns y e = t.owns y e := by
        intro y
        rw [hO y e, if_neg (fun hc => he hc.2)]
      rw [visAt_updAt_spcfp_ne t q0 d (nearestAbove t q0 d) q e he, hInv q e hvq2]
      exact (nearestOwner_congr t (t.removePropertyInternal q0 d dflt) e q
        (fun y _ => hOe y)).symm

/-! Invariant preservation: `addChildContainer`.  Structure of the tree
after `m_children.emplace_back`. -/

theorem get?_push (x : Tree) :
    ∀ (i : Nat) (g : Forest),
      (g.push x).get? i = if i = g.len then some x else g.get? i := by
  intro i
  induction i with
  | zero =>
    intro g
    cases g with
    | nil => simp [Forest.push, Forest.get?, Forest.len]
    | cons k g => simp [Forest.push, Forest.get?, Forest.len]
  | succ n ih =>
    intro g
    cases g with
    | nil => simp [Forest.push, Forest.get?, Forest.len]
    | cons k g => simpa [Forest.push, Forest.get?, Forest.len, Nat.succ_inj] using ih g

theorem sub?_push_cons (nd : Nd) (kids : Forest) (x : Tree) (j : Nat) (rest : Path)
    (hj : j ≠ kids.len) :
    (Tree.node nd (kids.push x)).sub? (j :: rest) =
      (Tree.node nd kids).sub? (j :: rest) := by
  rw [sub?_cons, sub?_cons]
  simp only [kids_node, get?_push, if_neg hj]

theorem sub?_push_new (nd : Nd) (kids : Forest) (x : Tree) (rest : Path) :
    (Tree.node nd (kids.push x)).sub? (kids.len :: rest) = x.sub? rest := by
  rw [sub?_cons]
  simp [kids_node, get?_push]

theorem sub?_isSome_updAt_out (t : Tree) (p : Path) (f : Tree → Tree) (q : Path)
    (h : ¬ p <+: q) : ((t.updAt p f).sub? q).isSome = (t.sub? q).isSome := by
  induction p generalizing t q with
  | nil => exact absurd (List.nil_prefix) h
  | cons i r ih =>
    obtain ⟨nd, kids⟩ := t
    cases q with
    | nil => rfl
    | cons j q0 =>
      rw [updAt_cons, sub?_cons, sub?_cons]
      simp only [kids_node, get?_updKids]
      by_cases hij : i = j
      · subst hij
        simp only [if_pos rfl]
        cases hk : Forest.get? kids i with
        | none => simp
        | some k =>
          have hr : ¬ r <+: q0 := fun hp => h (List.cons_prefix_cons.mpr ⟨rfl, hp⟩)
          simpa using ih k q0 hr
      · simp only [if_neg hij]

/-! Effect of `rebase`: the adopted tree keeps its whole structure; all
stored container references gain the new prefix. -/

theorem rebase_node (pre : Path) (nd : Nd) (kids : Forest) :
    rebase pre (.node nd kids) = .node (rebaseNd pre nd) (rebaseF pre kids) := by
  rw [rebase]

theorem get?_rebaseF (pre : Path) :
    ∀ (i : Nat) (g : Forest),
      (rebaseF pre g).get? i = (g.get? i).map (rebase pre) := by
  intro i
  induction i with
  | zero =>
    intro g
    cases g with
    | nil => simp [rebaseF, Forest.get?]
    | cons k g => simp [rebaseF, Forest.get?]
  | succ n ih =>
    intro g
    cases g with
    | nil => simp [rebaseF, Forest.get?]
    | cons k g => simpa [rebaseF, Forest.get?] using ih g

theorem sub?_rebase (pre : Path) :
    ∀ (rel : Path) (s : Tree),
      (rebase pre s).sub? rel = (s.sub? rel).map (rebase pre) := by
  intro rel
  induction rel with
  | nil => intro s; rw [sub?_nil, sub?_nil]; rfl
  | cons i q0 ih =>
    intro s
    obtain ⟨nd, kids⟩ := s
    rw [rebase_node, sub?_cons, sub?_cons]
    simp only [kids_node, get?_rebaseF]
    cases hk : kids.get? i with
    | none => rfl
    | some k => simpa using ih k

theorem validP_rebase (pre : Path) (s : Tree) (rel : Path) :
    (rebase pre s).validP rel = s.validP rel := by
  rw [Tree.validP, Tree.validP, sub?_rebase]
  cases s.sub? rel <;> rfl

theorem lookupA_recs_rebase (pre : Path) (k : Nat) :
    ∀ (m : List (Nat × Rec)),
      (lookupA (m.map (fun kv =>
        (kv.1,
          { kv.2 with
            conn := kv.2.conn.map (fun (c : Path × Nat) => (pre ++ c.1, c.2)) }))) k).isSome
        = (lookupA m k).isSome := by
  intro m
  induction m with
  | nil => rfl
  | cons a m ih =>
    obtain ⟨k1, v1⟩ := a
    simp only [List.map_cons, lookupA]
    by_cases h : k1 = k
    · rw [if_pos h, if_pos h]
      rfl
    · rw [if_neg h, if_neg h, ih]

theorem lookupA_vis_rebase (pre : Path) (k : Nat) :
    ∀ (m : List (Nat × Path)),
      lookupA (m.map (fun kv => (kv.1, pre ++ kv.2))) k =
        (lookupA m k).map (fun x => pre ++ x) := by
  intro m
  induction m with
  | nil => rfl
  | cons a m ih =>
    obtain ⟨k1, v1⟩ := a
    simp only [List.map_cons, lookupA]
    by_cases h : k1 = k
    · rw [if_pos h, if_pos h]
      rfl
    · rw [if_neg h, if_neg h, ih]

theorem ownsNd_rebase (pre : Path) (n : Nd) (e : Nat) :
    ownsNd (rebaseNd pre n) e = ownsNd n e := by
  simp only [ownsNd, rebaseNd]
  exact lookupA_recs_rebase pre e n.recs

theorem visNd_rebase (pre : Path) (n : Nd) (e : Nat) :
    lookupA (rebaseNd pre n).vis e = (lookupA n.vis e).map (fun x => pre ++ x) := by
  simp only [rebaseNd]
  exact lookupA_vis_rebase pre e n.vis

theorem nd_rebase (pre : Path) (s : Tree) : (rebase pre s).nd = rebaseNd pre s.nd := by
  obtain ⟨nd, kids⟩ := s
  rw [rebase_node, nd_node, nd_node]

theorem owns_rebase (pre : Path) (s : Tree) (rel : Path) (e : Nat) :
    (rebase pre s).owns rel e = s.owns rel e := by
  rw [Tree.owns, Tree.owns, Tree.ndAt, Tree.ndAt, sub?_rebase]
  cases s.sub? rel with
  | none => rfl
  | some u =>
    show ownsNd (rebase pre u).nd e = ownsNd u.nd e
    rw [nd_rebase, ownsNd_rebase]

theorem visAt_rebase (pre : Path) (s : Tree) (rel : Path) (e : Nat) :
    (rebase pre s).visAt rel e = (s.visAt rel e).map (fun x => pre ++ x) := by
  rw [Tree.visAt, Tree.visAt, Tree.ndAt, Tree.ndAt, sub?_rebase]
  cases s.sub? rel with
  | none => rfl
  | some u =>
    show lookupA (rebase pre u).nd.vis e = (lookupA u.nd.vis e).map (fun x => pre ++ x)
    rw [nd_rebase, visNd_rebase]

theorem freeB_rebase (pre : Path) (e : Nat) :
    ∀ (rel : Path) (s : Tree), freeB e (rebase pre s) rel = freeB e s rel := by
  intro rel
  induction rel with
  | nil => intro s; rfl
  | cons i q0 ih =>
    intro s
    obtain ⟨nd, kids⟩ := s
    rw [rebase_node]
    simp only [freeB, kids_node, get?_rebaseF]
    cases hk : kids.get? i with
    | none => rfl
    | some k =>
      simp only [Option.map_some']
      rw [nd_rebase, ownsNd_rebase, ih k]

/-! Effect of the two propagation loops (`applyUps`). -/

theorem applyUps_nil (s : Tree) : applyUps [] s = s := rfl

theorem applyUps_cons (a : Nat × Path) (L : List (Nat × Path)) (s : Tree) :
    applyUps (a :: L) s =
      applyUps L (if ownsNd s.nd a.1 then s else spcfp a.1 (some a.2) s) := rfl

theorem applyUps_append (L1 L2 : List (Nat × Path)) (s : Tree) :
    applyUps (L1 ++ L2) s = applyUps L2 (applyUps L1 s) := by
  rw [applyUps, applyUps, applyUps, List.foldl_append]

theorem nd_spcfp (k : Nat) (c : Option Path) (s : Tree) :
    (spcfp k c s).nd = setVisNd s.nd k c := by
  obtain ⟨nd, kids⟩ := s
  rw [spcfp_node, nd_node, nd_node]

theorem ownsNd_root_applyUps :
    ∀ (L : List (Nat × Path)) (s : Tree) (e : Nat),
      ownsNd (applyUps L s).nd e = ownsNd s.nd e := by
  intro L
  induction L with
  | nil => intro s e; rfl
  | cons a L ih =>
    intro s e
    rw [applyUps_cons]
    by_cases h : ownsNd s.nd a.1 = true
    · rw [if_pos h, ih]
    · rw [if_neg h, ih, nd_spcfp]
      exact ownsNd_congr _ _ e (setVisNd_fields _ _ _).1

theorem owns_spcfp (k : Nat) (c : Option Path) (s : Tree) (rel : Path) (e : Nat) :
    (spcfp k c s).owns rel e = s.owns rel e := by
  rw [Tree.owns, Tree.owns, ndAt_spcfp]
  by_cases h : freeB k s rel = true
  · rw [if_pos h]
    exact ownsNd_congr _ _ e (setVisNd_fields _ _ _).1
  · rw [if_neg h]

theorem owns_applyUps :
    ∀ (L : List (Nat × Path)) (s : Tree) (rel : Path) (e : Nat),
      (applyUps L s).owns rel e = s.owns rel e := by
  intro L
  induction L with
  | nil => intro s rel e; rfl
  | cons a L ih =>
    intro s rel e
    rw [applyUps_cons]
    by_cases h : ownsNd s.nd a.1 = true
    · rw [if_pos h, ih]
    · rw [if_neg h, ih, owns_spcfp]

theorem validP_spcfp (k : Nat) (c : Option Path) (s : Tree) (rel : Path) :
    (spcfp k c s).validP rel = s.validP rel := by
  rw [Tree.validP, Tree.validP, sub?_isSome_spcfp]

theorem validP_applyUps :
    ∀ (L : List (Nat × Path)) (s : Tree) (rel : Path),
      (applyUps L s).validP rel = s.validP rel := by
  intro L
  induction L with
  | nil => intro s rel; rfl
  | cons a L ih =>
    intro s rel
    rw [applyUps_cons]
    by_cases h : ownsNd s.nd a.1 = true
    · rw [if_pos h, ih]
    · rw [if_neg h, ih, validP_spcfp]

theorem freeB_spcfp (e k : Nat) (c : Option Path) :
    ∀ (rel : Path) (s : Tree), freeB e (spcfp k c s) rel = freeB e s rel := by
  intro rel
  induction rel with
  | nil => intro s; rfl
  | cons i q0 ih =>
    intro s
    obtain ⟨nd, kids⟩ := s
    rw [spcfp_node]
    simp only [freeB, kids_node, get?_spcfpF]
    cases hk : kids.get? i with
    | none => rfl
    | some k2 =>
      simp only [Option.map_some']
      by_cases ho : ownsNd k2.nd k = true
      · rw [if_pos ho]
      · rw [if_neg ho, nd_spcfp, ih k2]
        have h1 : ownsNd (setVisNd k2.nd k c) e = ownsNd k2.nd e :=
          ownsNd_congr _ _ e (setVisNd_fields _ _ _).1
        rw [h1]

theorem freeB_applyUps (e : Nat) (rel : Path) :
    ∀ (L : List (Nat × Path)) (s : Tree),
      freeB e (applyUps L s) rel = freeB e s rel := by
  intro L
  induction L with
  | nil => intro s; rfl
  | cons a L ih =>
    intro s
    rw [applyUps_cons]
    by_cases h : ownsNd s.nd a.1 = true
    · rw [if_pos h, ih]
    · rw [if_neg h, ih, freeB_spcfp]

theorem visAt_spcfp_root (k : Nat) (c : Option Path) (s : Tree) (rel : Path)
    (e : Nat) :
    (spcfp k c s).visAt rel e =
      if e = k ∧ freeB k s rel = true then c else s.visAt rel e := by
  rw [Tree.visAt, Tree.visAt, ndAt_spcfp]
  by_cases hf : freeB k s rel = true
  · rw [if_pos hf]
    by_cases he : e = k
    · rw [if_pos ⟨he, hf⟩]
      subst he
      cases c with
      | some x => simp [setVisNd, lookupA_insertA_self]
      | none => simp [setVisNd, lookupA_eraseA_self]
    · rw [if_neg (fun hc => he hc.1)]
      exact vis_setVisNd_ne _ _ _ _ he
  · rw [if_neg hf, if_neg (fun hc => hf hc.2)]

theorem lastTarget_append_one (L : List (Nat × Path)) (a : Nat × Path) (e : Nat) :
    lastTarget (L ++ [a]) e = if a.1 = e then some a.2 else lastTarget L e := by
  rw [lastTarget, List.filter_append]
  by_cases h : a.1 = e
  · have h1 : List.filter (fun kv => decide (kv.1 = e)) [a] = [a] := by
      simp [List.filter, h]
    rw [h1, if_pos h, List.getLast?_concat]
    rfl
  · have h1 : List.filter (fun kv => decide (kv.1 = e)) [a] = [] := by
      simp [List.filter, h]
    rw [h1, List.append_nil, if_neg h, lastTarget]

/-- Each loop's effect on the visibility index of the adopted subtree:
a descriptor owned by the subtree root is never touched; otherwise the
last applicable loop entry wins over the uncovered region. -/
theorem visAt_applyUps (rel : Path) (e : Nat) :
    ∀ (L : List (Nat × Path)) (s : Tree),
      (applyUps L s).visAt rel e =
        if ownsNd s.nd e = true then s.visAt rel e
        else
          match lastTarget L e with
          | some c => if freeB e s rel = true then some c else s.visAt rel e
          | none => s.visAt rel e := by
  intro L
  induction L using List.reverseRecOn with
  | nil =>
    intro s
    by_cases h : ownsNd s.nd e = true
    · rw [if_pos h]
      rfl
    · rw [if_neg h]
      rfl
  | append_singleton L a ih =>
    intro s
    rw [applyUps_append, lastTarget_append_one]
    have hstep : applyUps [a] (applyUps L s) =
        if ownsNd (applyUps L s).nd a.1 then applyUps L s
        else spcfp a.1 (some a.2) (applyUps L s) := rfl
    rw [hstep]
    simp only [ownsNd_root_applyUps]
    by_cases h1 : a.1 = e
    · subst h1
      by_cases hro : ownsNd s.nd a.1 = true
      · rw [if_pos hro, ih s, if_pos hro, if_pos hro]
      · rw [if_neg hro, visAt_spcfp_root, if_neg hro]
        simp only [freeB_applyUps, true_and, if_true]
        by_cases hf : freeB a.1 s rel = true
        · rw [if_pos hf, if_pos hf]
        · rw [if_neg hf, if_neg hf, ih s, if_neg hro]
          cases lastTarget L a.1 with
          | none => rfl
          | some c =>
            simp only []
            rw [if_neg hf]
    · rw [if_neg h1]
      by_cases hro1 : ownsNd s.nd a.1 = true
      · rw [if_pos hro1, ih s]
      · rw [if_neg hro1, visAt_spcfp_root, if_neg (fun hc => h1 hc.1.symm), ih s]

theorem filter_key_eq_nil {m : List (Nat × Path)} {k1 : Nat}
    (h : k1 ∉ m.map Prod.fst) :
    m.filter (fun kv => decide (kv.1 = k1)) = [] := by
  induction m with
  | nil => rfl
  | cons b m ih =>
    simp only [List.map_cons, List.mem_cons] at h
    push_neg at h
    obtain ⟨h1, h2⟩ := h
    rw [List.filter_cons,
      if_neg (by simp only [decide_eq_true_eq]; exact fun hc => h1 hc.symm), ih h2]

/-- With unique keys (a C++ map), the last loop entry for a key is the
map entry. -/
theorem lastTarget_eq_lookupA :
    ∀ (m : List (Nat × Path)) (e : Nat), (m.map Prod.fst).Nodup →
      lastTarget m e = lookupA m e := by
  intro m
  induction m with
  | nil => intro e _; rfl
  | cons a m ih =>
    intro e hnd
    obtain ⟨k1, v⟩ := a
    simp only [List.map_cons, List.nodup_cons] at hnd
    obtain ⟨hk1, hnd2⟩ := hnd
    rw [lastTarget, lookupA]
    by_cases hk : k1 = e
    · subst hk
      rw [if_pos rfl, List.filter_cons, if_pos (by simp), filter_key_eq_nil hk1]
      simp
    · rw [if_neg hk, List.filter_cons, if_neg (by simp [hk]), ← ih e hnd2, lastTarget]

theorem lastTarget_map_none (p : Path) (e : Nat) :
    ∀ (m : List (Nat × Rec)), lookupA m e = none →
      lastTarget (m.map (fun kv => (kv.1, p))) e = none := by
  intro m
  induction m with
  | nil => intro _; rfl
  | cons a m ih =>
    intro h
    obtain ⟨k1, v⟩ := a
    rw [lookupA] at h
    by_cases hk : k1 = e
    · rw [if_pos hk] at h
      exact Option.noConfusion h
    · rw [if_neg hk] at h
      have h2 := ih h
      rw [lastTarget] at h2 ⊢
      rw [List.map_cons, List.filter_cons, if_neg (by simp [hk])]
      exact h2

/-! Node access after `addChildContainer`. -/

theorem ndAt_addChild_new (t : Tree) (p : Path) (s : Tree) (host : Tree)
    (ht : t.sub? p = some host) (rel : Path) :
    (t.addChild p s).ndAt (p ++ host.kids.len :: rel) =
      (attachSub p host s).ndAt rel := by
  rw [Tree.ndAt, Tree.ndAt, Tree.addChild,
    sub?_updAt_ext t p _ host ht (host.kids.len :: rel)]
  rw [sub?_push_new]

theorem ndAt_addChild_old (t : Tree) (p : Path) (s : Tree) (host : Tree)
    (ht : t.sub? p = some host) (q : Path)
    (hq : ∀ rest, q ≠ p ++ host.kids.len :: rest) :
    (t.addChild p s).ndAt q = t.ndAt q := by
  by_cases hpre : p <+: q
  · obtain ⟨rel, hrel⟩ := hpre
    subst hrel
    rw [Tree.ndAt, Tree.ndAt, Tree.addChild, sub?_updAt_ext t p _ host ht rel,
      sub?_append, ht]
    simp only [Option.some_bind]
    cases rel with
    | nil => rfl
    | cons j rest =>
      have hj : j ≠ host.kids.len := by
        intro he
        exact hq rest (by rw [he])
      rw [sub?_push_cons host.nd host.kids _ j rest hj]
      obtain ⟨hnd, hkids⟩ := host
      rfl
  · rw [Tree.addChild]
    exact ndAt_updAt_not_ext t p _ q hpre

theorem validP_addChild_new (t : Tree) (p : Path) (s : Tree) (host : Tree)
    (ht : t.sub? p = some host) (rel : Path) :
    (t.addChild p s).validP (p ++ host.kids.len :: rel) =
      (attachSub p host s).validP rel := by
  rw [Tree.validP, Tree.validP, Tree.addChild,
    sub?_updAt_ext t p _ host ht (host.kids.len :: rel)]
  rw [sub?_push_new]

theorem validP_addChild_old (t : Tree) (p : Path) (s : Tree) (host : Tree)
    (ht : t.sub? p = some host) (q : Path)
    (hq : ∀ rest, q ≠ p ++ host.kids.len :: rest) :
    (t.addChild p s).validP q = t.validP q := by
  by_cases hpre : p <+: q
  · obtain ⟨rel, hrel⟩ := hpre
    subst hrel
    rw [Tree.validP, Tree.validP, Tree.addChild, sub?_updAt_ext t p _ host ht rel,
      sub?_append, ht]
    simp only [Option.some_bind]
    cases rel with
    | nil => rfl
    | cons j rest =>
      have hj : j ≠ host.kids.len := by
        intro he
        exact hq rest (by rw [he])
      rw [sub?_push_cons host.nd host.kids _ j rest hj]
      obtain ⟨hnd, hkids⟩ := host
      rfl
  · rw [Tree.validP, Tree.validP, Tree.addChild, sub?_isSome_updAt_out t p _ q hpre]

theorem owns_addChild_new (t : Tree) (p : Path) (s : Tree) (host : Tree)
    (ht : t.sub? p = some host) (rel : Path) (e : Nat) :
    (t.addChild p s).owns (p ++ host.kids.len :: rel) e =
      (attachSub p host s).owns rel e := by
  rw [Tree.owns, Tree.owns, ndAt_addChild_new t p s host ht rel]

theorem owns_addChild_old (t : Tree) (p : Path) (s : Tree) (host : Tree)
    (ht : t.sub? p = some host) (q : Path) (e : Nat)
    (hq : ∀ rest, q ≠ p ++ host.kids.len :: rest) :
    (t.addChild p s).owns q e = t.owns q e := by
  rw [Tree.owns, Tree.owns, ndAt_addChild_old t p s host ht q hq]

theorem visAt_addChild_new (t : Tree) (p : Path) (s : Tree) (host : Tree)
    (ht : t.sub? p = some host) (rel : Path) (e : Nat) :
    (t.addChild p s).visAt (p ++ host.kids.len :: rel) e =
      (attachSub p host s).visAt rel e := by
  rw [Tree.visAt, Tree.visAt, ndAt_addChild_new t p s host ht rel]

theorem visAt_addChild_old (t : Tree) (p : Path) (s : Tree) (host : Tree)
    (ht : t.sub? p = some host) (q : Path) (e : Nat)
    (hq : ∀ rest, q ≠ p ++ host.kids.len :: rest) :
    (t.addChild p s).visAt q e = t.visAt q e := by
  rw [Tree.visAt, Tree.visAt, ndAt_addChild_old t p s host ht q hq]

/-- A `none` walk result means no inclusive ancestor owns. -/
theorem nearestOwner_none_all (t : Tree) (e : Nat) :
    ∀ rel, t.nearestOwner rel e = none → ∀ y, y <+: rel → t.owns y e = false := by
  intro rel
  induction rel using List.reverseRecOn with
  | nil =>
    intro h y hy
    rw [List.prefix_nil] at hy
    subst hy
    rw [nearestOwner_nil] at h
    by_cases ho : t.owns [] e = true
    · rw [if_pos ho] at h
      exact Option.noConfusion h
    · revert ho
      cases t.owns [] e <;> simp
  | append_singleton l a ih =>
    intro h y hy
    rw [nearestOwner_concat] at h
    by_cases ho : t.owns (l ++ [a]) e = true
    · rw [if_pos ho] at h
      exact Option.noConfusion h
    · rw [if_neg ho] at h
      rcases List.prefix_concat_iff.mp hy with h1 | h1
      · rw [h1]
        revert ho
        cases t.owns (l ++ [a]) e <;> simp
      · exact ih h y h1

/-- When the root owns, the walk always succeeds. -/
theorem nearestOwner_isSome_root (t : Tree) (e : Nat) (h : t.owns [] e = true) :
    ∀ rel, (t.nearestOwner rel e).isSome = true := by
  intro rel
  induction rel using List.reverseRecOn with
  | nil =>
    rw [nearestOwner_nil, if_pos h]
    rfl
  | append_singleton l a ih =>
    rw [nearestOwner_concat]
    by_cases ho : t.owns (l ++ [a]) e = true
    · rw [if_pos ho]
      rfl
    · rw [if_neg ho]
      exact ih

/-- Grafting: the nearest-owner walk inside the adopted subtree either
resolves within it, or continues at the host. -/
theorem nearestOwner_graft (t : Tree) (p : Path) (s : Tree) (host : Tree)
    (ht : t.sub? p = some host) (e : Nat) :
    ∀ rel, (t.addChild p s).nearestOwner (p ++ host.kids.len :: rel) e =
      match (attachSub p host s).nearestOwner rel e with
      | some x => some (p ++ host.kids.len :: x)
      | none => t.nearestOwner p e := by
  have hOold : ∀ y, y <+: p → (t.addChild p s).owns y e = t.owns y e := by
    intro y hy
    refine owns_addChild_old t p s host ht y e ?_
    intro rest hc
    have h1 := hy.length_le
    rw [hc] at h1
    simp at h1
  have hNOp : (t.addChild p s).nearestOwner p e = t.nearestOwner p e :=
    nearestOwner_congr t (t.addChild p s) e p hOold
  intro rel
  induction rel using List.reverseRecOn with
  | nil =>
    rw [nearestOwner_concat, owns_addChild_new t p s host ht [] e, nearestOwner_nil]
    by_cases ho : (attachSub p host s).owns [] e = true
    · rw [if_pos ho, if_pos ho]
    · rw [if_neg ho, if_neg ho, hNOp]
  | append_singleton r a ih =>
    have hassoc : p ++ host.kids.len :: (r ++ [a]) =
        (p ++ host.kids.len :: r) ++ [a] := by
      simp
    rw [hassoc, nearestOwner_concat, ← hassoc,
      owns_addChild_new t p s host ht (r ++ [a]) e, nearestOwner_concat]
    by_cases ho : (attachSub p host s).owns (r ++ [a]) e = true
    · rw [if_pos ho, if_pos ho]
    · rw [if_neg ho, if_neg ho, ih]

/-- `addChildContainer` preserves the visibility-index invariant, given
the invariant for both trees (and well-formed map keys at the host). -/
theorem Inv_addChild (t : Tree) (hInvT : Inv t) (s : Tree) (hInvS : Inv s)
    (p : Path) (host : Tree) (ht : t.sub? p = some host)
    (hnod : (host.nd.vis.map Prod.fst).Nodup) :
    Inv (t.addChild p s) := by
  intro q e hvq
  by_cases hnewr : p ++ [host.kids.len] <+: q
  · obtain ⟨rel, hrel⟩ := hnewr
    subst hrel
    have hq2 : p ++ [host.kids.len] ++ rel = p ++ host.kids.len :: rel := by
      simp
    rw [hq2] at hvq ⊢
    have hvsub : (attachSub p host s).validP rel = true := by
      rw [← validP_addChild_new t p s host ht rel]
      exact hvq
    have hvs1 : s.validP rel = true := by
      rw [attachSub, validP_applyUps, validP_applyUps, validP_rebase] at hvsub
      exact hvsub
    have hsub2 : (s.sub? rel).isSome = true := by
      rw [← Tree.validP]
      exact hvs1
    have hosub : ∀ y f, (attachSub p host s).owns y f = s.owns y f := by
      intro y f
      rw [attachSub, owns_applyUps, owns_applyUps, owns_rebase]
    have hNOsub : (attachSub p host s).nearestOwner rel e = s.nearestOwner rel e :=
      nearestOwner_congr s (attachSub p host s) e rel (fun y _ => hosub y e)
    have hrootowns : ownsNd (rebase (p ++ [host.kids.len]) s).nd e = ownsNd s.nd e := by
      rw [nd_rebase, ownsNd_rebase]
    rw [visAt_addChild_new t p s host ht rel, nearestOwner_graft t p s host ht e rel,
      hNOsub, attachSub, visAt_applyUps rel e]
    simp only [ownsNd_root_applyUps, hrootowns, freeB_applyUps, freeB_rebase]
    by_cases hro : ownsNd s.nd e = true
    · rw [if_pos hro]
      have hMa : (applyUps (host.nd.recs.map (fun kv => (kv.1, p)))
          (rebase (p ++ [host.kids.len]) s)).visAt rel e =
          (s.nearestOwner rel e).map (fun y => (p ++ [host.kids.len]) ++ y) := by
        rw [visAt_applyUps rel e]
        simp only [hrootowns]
        rw [if_pos hro, visAt_rebase, hInvS rel e hvs1]
      rw [hMa]
      cases hNO2 : s.nearestOwner rel e with
      | some x => simp
      | none =>
        have hsome := nearestOwner_isSome_root s e
          (by rw [Tree.owns, ndAt_nil]; exact hro) rel
        rw [hNO2] at hsome
        exact Bool.noConfusion hsome
    · rw [if_neg hro]
      cases hNO : s.nearestOwner rel e with
      | some x =>
        obtain ⟨hxowns, hxpre⟩ := nearestOwner_owns s e rel x hNO
        have hxne : x ≠ [] := by
          intro hx0
          rw [hx0, Tree.owns, ndAt_nil] at hxowns
          exact hro hxowns
        have hfb : freeB e s rel = false := by
          by_cases hf : freeB e s rel = true
          · have h1 := (freeB_iff e rel s hsub2).mp hf x hxpre hxne
            rw [Tree.owns] at hxowns
            rw [h1] at hxowns
            exact Bool.noConfusion hxowns
          · revert hf
            cases freeB e s rel <;> simp
        have hM : (applyUps (host.nd.recs.map (fun kv => (kv.1, p)))
            (rebase (p ++ [host.kids.len]) s)).visAt rel e =
            some (p ++ host.kids.len :: x) := by
          have hs1vis : (rebase (p ++ [host.kids.len]) s).visAt rel e =
              some (p ++ host.kids.len :: x) := by
            rw [visAt_rebase, hInvS rel e hvs1, hNO]
            simp
          rw [visAt_applyUps rel e]
          simp only [hrootowns, freeB_rebase]
          rw [if_neg hro]
          cases lastTarget (host.nd.recs.map (fun kv => (kv.1, p))) e with
          | none => exact hs1vis
          | some c1 =>
            simp only []
            rw [if_neg (by simp [hfb])]
            exact hs1vis
        cases hLT : lastTarget host.nd.vis e with
        | some c =>
          simp only []
          rw [if_neg (by simp [hfb]), hM]
        | none =>
          simp only []
          rw [hM]
      | none =>
        have hall := nearestOwner_none_all s e rel hNO
        have hfb : freeB e s rel = true := by
          refine (freeB_iff e rel s hsub2).mpr ?_
          intro r0 hr0 _
          have h1 := hall r0 hr0
          rw [Tree.owns] at h1
          exact h1
        have hvisp : lookupA host.nd.vis e = t.nearestOwner p e := by
          have h1 : t.visAt p e = lookupA host.nd.vis e := by
            rw [Tree.visAt, Tree.ndAt, ht]
          have hvp : t.validP p = true := by
            rw [Tree.validP, ht]
            rfl
          rw [← h1, hInvT p e hvp]
        rw [lastTarget_eq_lookupA host.nd.vis e hnod, hvisp]
        cases hNOp2 : t.nearestOwner p e with
        | some c =>
          simp only []
          rw [if_pos hfb]
        | none =>
          simp only []
          have hop : t.owns p e = false :=
            nearestOwner_none_all t e p hNOp2 p (List.prefix_refl p)
          have hrecs : lookupA host.nd.recs e = none := by
            rw [Tree.owns, Tree.ndAt, ht, ownsNd] at hop
            cases hh : lookupA host.nd.recs e with
            | none => rfl
            | some z =>
              rw [hh] at hop
              simp at hop
          have hM : (applyUps (host.nd.recs.map (fun kv => (kv.1, p)))
              (rebase (p ++ [host.kids.len]) s)).visAt rel e = none := by
            rw [visAt_applyUps rel e]
            simp only [hrootowns]
            rw [if_neg hro, lastTarget_map_none p e host.nd.recs hrecs]
            simp only []
            rw [visAt_rebase, hInvS rel e hvs1, hNO]
            rfl
          rw [hM]
  · have hq : ∀ rest, q ≠ p ++ host.kids.len :: rest := by
      intro rest hc
      refine hnewr ?_
      rw [hc]
      exact ⟨rest, by simp⟩
    have hvq2 : t.validP q = true := by
      rw [← validP_addChild_old t p s host ht q hq]
      exact hvq
    rw [visAt_addChild_old t p s host ht q e hq, hInvT q e hvq2]
    refine (nearestOwner_congr t (t.addChild p s) e q ?_).symm
    intro y hy
    refine owns_addChild_old t p s host ht y e ?_
    intro rest hc
    refine hnewr (List.IsPrefix.trans ?_ hy)
    rw [hc]
    exact ⟨rest, by simp⟩

/-- A fresh standalone container satisfies the invariant. -/
theorem Inv_single : Inv single := by
  intro p d hv
  cases p with
  | nil =>
    rw [nearestOwner_nil]
    have h1 : single.owns [] d = false := rfl
    have h2 : single.visAt [] d = none := rfl
    rw [h1, h2]
    simp
  | cons i r =>
    rw [Tree.validP, sub?_cons] at hv
    simp [single, Forest.get?] at hv


/-! Helper equalities for reading values through the visibility index. -/

theorem getProperty_eq_of (t : Tree) (p q : Path) (d : Nat) (dflt v : Int)
    (hvis : t.visAt p d = some q) (hval : t.valueAt q d = some v) :
    t.getProperty p d dflt = v := by
  rw [Tree.getProperty, hvis]
  simp only []
  rw [Tree.valueAt] at hval
  cases hl : lookupA (t.ndAt q).recs d with
  | none =>
    rw [hl] at hval
    exact Option.noConfusion hval
  | some r =>
    rw [hl] at hval
    simp at hval
    simp [hval]

theorem getProperty_none (t : Tree) (p : Path) (d : Nat) (dflt : Int)
    (hvis : t.visAt p d = none) : t.getProperty p d dflt = dflt := by
  rw [Tree.getProperty, hvis]

/-- C1: cascading visibility over a three-level chain (root R, child A,
grandchild A1): setting a descriptor at R makes the value visible at A1;
overriding at A masks R for A1 while R keeps its own value; removing the
override at A re-exposes R's value at A1. -/
theorem C1_cascading_visibility (v1 v2 dd : Int) (h : v1 ≠ v2) :
    ((chain3.setProperty [] 0 v1).getProperty [0, 0] 0 dd = v1) ∧
    (((chain3.setProperty [] 0 v1).setProperty [0] 0 v2).getProperty [0, 0] 0 dd = v2) ∧
    (((chain3.setProperty [] 0 v1).setProperty [0] 0 v2).getProperty [] 0 dd = v1) ∧
    ((((chain3.setProperty [] 0 v1).setProperty [0] 0 v2).removeProperty [0] 0
      dd).getProperty [0, 0] 0 dd = v1) := by
  by_cases hv1 : v1 = 0
  · by_cases hv2 : v2 = 0
    · exact absurd (hv1.trans hv2.symm) h
    · subst hv1
      refine ⟨?_, ?_, ?_, ?_⟩ <;>
        simp [chain3, chain2, single, Tree.setProperty, Tree.getProperty, Tree.changeProperty,
      Tree.touchProperty, Tree.removeProperty, Tree.hasProperty, Tree.connect,
      Tree.valueAt, Tree.visAt, Tree.owns, ownsNd, Tree.ndAt, Tree.sub?, Tree.validP,
      Tree.updNd, Forest.get?, Forest.len, Forest.push, spcfp, spcfpF, setVisNd,
      getAllSignals, getAllSignalsF, getOrConstructNd, Tree.getOrConstructAt,
      Tree.updateAllSignals, Tree.getOwning, setDirtyNd, Tree.touchPropertyInternal,
      Tree.changePropertyInternal, parentOf, Tree.parentSignalRefresh, Tree.addSignal,
      Tree.addSignals, Tree.removePropertyInternal, Tree.updAt.updKids,
      lookupA, insertA, eraseA, tryEmplace, Tree.nd, Tree.kids, hv2, h, Ne.symm h]
  · by_cases hv2 : v2 = 0
    · subst hv2
      refine ⟨?_, ?_, ?_, ?_⟩ <;>
        simp [chain3, chain2, single, Tree.setProperty, Tree.getProperty, Tree.changeProperty,
      Tree.touchProperty, Tree.removeProperty, Tree.hasProperty, Tree.connect,
      Tree.valueAt, Tree.visAt, Tree.owns, ownsNd, Tree.ndAt, Tree.sub?, Tree.validP,
      Tree.updNd, Forest.get?, Forest.len, Forest.push, spcfp, spcfpF, setVisNd,
      getAllSignals, getAllSignalsF, getOrConstructNd, Tree.getOrConstructAt,
      Tree.updateAllSignals, Tree.getOwning, setDirtyNd, Tree.touchPropertyInternal,
      Tree.changePropertyInternal, parentOf, Tree.parentSignalRefresh, Tree.addSignal,
      Tree.addSignals, Tree.removePropertyInternal, Tree.updAt.updKids,
      lookupA, insertA, eraseA, tryEmplace, Tree.nd, Tree.kids, hv1, h, Ne.symm h]
    · refine ⟨?_, ?_, ?_, ?_⟩ <;>
        simp [chain3, chain2, single, Tree.setProperty, Tree.getProperty, Tree.changeProperty,
      Tree.touchProperty, Tree.removeProperty, Tree.hasProperty, Tree.connect,
      Tree.valueAt, Tree.visAt, Tree.owns, ownsNd, Tree.ndAt, Tree.sub?, Tree.validP,
      Tree.updNd, Forest.get?, Forest.len, Forest.push, spcfp, spcfpF, setVisNd,
      getAllSignals, getAllSignalsF, getOrConstructNd, Tree.getOrConstructAt,
      Tree.updateAllSignals, Tree.getOwning, setDirtyNd, Tree.touchPropertyInternal,
      Tree.changePropertyInternal, parentOf, Tree.parentSignalRefresh, Tree.addSignal,
      Tree.addSignals, Tree.removePropertyInternal, Tree.updAt.updKids,
      lookupA, insertA, eraseA, tryEmplace, Tree.nd, Tree.kids, hv1, hv2, h, Ne.symm h]

theorem C1_cascading_visibility_witness :
    ((chain3.setProperty [] 0 1).getProperty [0, 0] 0 0 = 1) ∧
    (((chain3.setProperty [] 0 1).setProperty [0] 0 2).getProperty [0, 0] 0 0 = 2) ∧
    (((chain3.setProperty [] 0 1).setProperty [0] 0 2).getProperty [] 0 0 = 1) ∧
    ((((chain3.setProperty [] 0 1).setProperty [0] 0 2).removeProperty [0] 0
      0).getProperty [0, 0] 0 0 = 1) :=
  C1_cascading_visibility 1 2 0 (by decide)

/-- C2: the visibility-index invariant — every container's index entry
for a descriptor is its nearest inclusive-ancestor owner, absent exactly
when no inclusive ancestor owns — is preserved by each of the four
public mutations `setProperty`, `changeProperty`, `removeProperty` and
`addChildContainer`. -/
theorem C2_visibility_invariant :
    (∀ t : Tree, Inv t → ∀ (p : Path) (d : Nat) (v : Int), t.validP p = true →
      Inv (t.setProperty p d v)) ∧
    (∀ t : Tree, Inv t → ∀ (p : Path) (d : Nat) (v : Int),
      Inv (t.changeProperty p d v)) ∧
    (∀ t : Tree, Inv t → ∀ (p : Path) (d : Nat) (dflt : Int),
      Inv (t.removeProperty p d dflt)) ∧
    (∀ t s : Tree, Inv t → Inv s → ∀ (p : Path) (host : Tree),
      t.sub? p = some host → (host.nd.vis.map Prod.fst).Nodup →
      Inv (t.addChild p s)) :=
  ⟨fun t h p d v hv => Inv_setProperty t h p d v hv,
   fun t h p d v => Inv_changeProperty t h p d v,
   fun t h p d dflt => Inv_removeProperty t h p d dflt,
   fun t s h1 h2 p host ht hnod => Inv_addChild t h1 s h2 p host ht hnod⟩

theorem C2_visibility_invariant_witness :
    Inv (single.setProperty [] 0 5) ∧ Inv (single.addChild [] single) :=
  ⟨C2_visibility_invariant.1 single Inv_single [] 0 5 rfl,
   C2_visibility_invariant.2.2.2 single single Inv_single Inv_single [] single rfl
     (by decide)⟩

/-- No inclusive ancestor owning means the walk fails. -/
theorem nearestOwner_none_of_all (t : Tree) (e : Nat) :
    ∀ rel, (∀ y, y <+: rel → t.owns y e = false) → t.nearestOwner rel e = none := by
  intro rel
  induction rel using List.reverseRecOn with
  | nil =>
    intro h
    rw [nearestOwner_nil, if_neg (by simp [h [] List.nil_prefix])]
  | append_singleton l a ih =>
    intro h
    rw [nearestOwner_concat, if_neg (by simp [h _ (List.prefix_refl _)])]
    exact ih (fun y hy => h y (hy.trans (List.prefix_append _ _)))

/-- C3: at a container none of whose inclusive ancestors owns a record
for the descriptor (no `setProperty` ever reached the chain),
`getProperty` returns the descriptor's default and `hasProperty` is
false. -/
theorem C3_unset_default (t : Tree) (hInv : Inv t) (p : Path) (d : Nat)
    (hv : t.validP p = true) (hfree : ∀ y, y <+: p → t.owns y d = false)
    (dflt : Int) :
    t.getProperty p d dflt = dflt ∧ t.hasProperty p d = false := by
  have hnone : t.visAt p d = none := by
    rw [hInv p d hv]
    exact nearestOwner_none_of_all t d p hfree
  refine ⟨getProperty_none t p d dflt hnone, ?_⟩
  rw [Tree.hasProperty, hnone]
  rfl

theorem C3_unset_default_witness :
    single.getProperty [] 0 7 = 7 ∧ single.hasProperty [] 0 = false :=
  C3_unset_default single Inv_single [] 0 rfl
    (fun y hy => by rw [List.prefix_nil] at hy; subst hy; rfl) 7

/-- C4: with no inclusive-ancestor owner for the descriptor,
`changeProperty`, `removeProperty` and `touchProperty` return the tree
unchanged (no ownership is ever created), `disconnect` clears only its
own signal slots — ownership, the visibility index and all stored
values are untouched — and the container still reports no property and
the default value. -/
theorem C4_noop_unowned (t : Tree) (hInv : Inv t) (p : Path) (d : Nat)
    (hv : t.validP p = true) (hfree : ∀ y, y <+: p → t.owns y d = false)
    (v dflt : Int) :
    t.changeProperty p d v = t ∧
    t.removeProperty p d dflt = t ∧
    t.touchProperty p d = t ∧
    (∀ q e, (t.disconnectAll p d).owns q e = t.owns q e) ∧
    (∀ q e, (t.disconnectAll p d).visAt q e = t.visAt q e) ∧
    (∀ q e, (t.disconnectAll p d).valueAt q e = t.valueAt q e) ∧
    t.hasProperty p d = false ∧ t.getProperty p d dflt = dflt := by
  have hnone : t.visAt p d = none := by
    rw [hInv p d hv]
    exact nearestOwner_none_of_all t d p hfree
  refine ⟨?_, ?_, ?_, ?_, ?_, ?_, ?_, ?_⟩
  · rw [Tree.changeProperty, hnone]
  · rw [Tree.removeProperty, hnone]
  · rw [Tree.touchProperty, hnone]
  · intro q e
    rw [Tree.disconnectAll]
    exact owns_updNd_pres t p (fun n => { n with sigs := insertA n.sigs d [] }) e
      (fun n => rfl) q
  · intro q e
    rw [Tree.disconnectAll]
    exact visAt_updNd_pres t p (fun n => { n with sigs := insertA n.sigs d [] })
      (fun n => rfl) q e
  · intro q e
    rw [Tree.disconnectAll, Tree.valueAt, Tree.valueAt, ndAt_updNd]
    by_cases hc : t.validP p ∧ q = p
    · rw [if_pos hc, hc.2]
    · rw [if_neg hc]
  · rw [Tree.hasProperty, hnone]
    rfl
  · exact getProperty_none t p d dflt hnone

theorem C4_noop_unowned_witness :
    single.changeProperty [] 0 3 = single ∧
    single.removeProperty [] 0 7 = single ∧
    single.touchProperty [] 0 = single ∧
    (∀ q e, (single.disconnectAll [] 0).owns q e = single.owns q e) ∧
    (∀ q e, (single.disconnectAll [] 0).visAt q e = single.visAt q e) ∧
    (∀ q e, (single.disconnectAll [] 0).valueAt q e = single.valueAt q e) ∧
    single.hasProperty [] 0 = false ∧ single.getProperty [] 0 7 = 7 :=
  C4_noop_unowned single Inv_single [] 0 rfl
    (fun y hy => by rw [List.prefix_nil] at hy; subst hy; rfl) 3 7

/-- A tree with every dirty list and removed queue empty emits
nothing. -/
theorem emitLog_clean (t : Tree)
    (h : ∀ q, (t.ndAt q).dirtyL = [] ∧ (t.ndAt q).removedL = []) :
    t.emitLog = [] := by
  rw [Tree.emitLog]
  have hnode : ∀ p, nodePassLog t p = [] := by
    intro p
    simp [nodePassLog, (h p).1, (h p).2, dedupKeys]
  have hall : ∀ L : List Path, L.flatMap (nodePassLog t) = [] := by
    intro L
    induction L with
    | nil => rfl
    | cons a L ih =>
      rw [List.flatMap_cons, hnode a, ih]
      rfl
  exact hall _

/-- C5: a `setProperty` repeated with the same value marks nothing
dirty the second time; writing the value already stored at an owned
record leaves every dirty list and removed queue untouched, so a later
`emit` from a clean state fires no observer. -/
theorem C5_redundant_write (t : Tree) (p : Path) (d : Nat) (v : Int)
    (hv : t.validP p = true) :
    (∀ q, (((t.setProperty p d v).setProperty p d v).ndAt q).dirtyL =
      ((t.setProperty p d v).ndAt q).dirtyL) ∧
    (t.owns p d = true → t.valueAt p d = some v → ∀ q,
      ((t.setProperty p d v).ndAt q).dirtyL = (t.ndAt q).dirtyL ∧
      ((t.setProperty p d v).ndAt q).removedL = (t.ndAt q).removedL) ∧
    (t.owns p d = true → t.valueAt p d = some v →
      (∀ q, (t.ndAt q).dirtyL = [] ∧ (t.ndAt q).removedL = []) →
      (t.setProperty p d v).emitLog = []) := by
  refine ⟨?_, ?_, ?_⟩
  · intro q
    exact (dirty_setProperty_redundant (t.setProperty p d v) p d v
      (owns_setProperty_self t p d v hv) (valueAt_setProperty_self t p d v hv) q).1
  · intro howns hval q
    exact dirty_setProperty_redundant t p d v howns hval q
  · intro howns hval hclean
    refine emitLog_clean _ ?_
    intro q
    obtain ⟨h1, h2⟩ := dirty_setProperty_redundant t p d v howns hval q
    rw [h1, h2]
    exact hclean q

theorem C5_redundant_write_witness :
    ((single.setProperty [] 0 0).setProperty [] 0 0).emitLog = [] :=
  (C5_redundant_write (single.setProperty [] 0 0) [] 0 0 rfl).2.2 rfl rfl
    (fun q => by
      cases q with
      | nil => exact ⟨rfl, rfl⟩
      | cons i r => exact ⟨rfl, rfl⟩)

/-- C6: the claim says `removeProperty` on a non-owning container
changes nothing even when an ancestor owns the descriptor.  The code
dispatches through the visibility index to the owning ancestor and
removes the property there: with the root owning descriptor `0`
(value `1`) and an empty child, the child's `removeProperty` — the
child owns nothing — erases the root's record, so ownership and the
values visible everywhere do change.  The first two conjuncts set the
stage; the last three exhibit the contradiction with the claim. -/
theorem C6_remove_dispatch_bug :
    (chain2.setProperty [] 0 1).owns [] 0 = true ∧
    (chain2.setProperty [] 0 1).owns [0] 0 = false ∧
    ((chain2.setProperty [] 0 1).removeProperty [0] 0 0).owns [] 0 = false ∧
    ((chain2.setProperty [] 0 1).removeProperty [0] 0 0).hasProperty [0] 0 = false ∧
    ((chain2.setProperty [] 0 1).removeProperty [0] 0 0).getProperty [0] 0 7 = 7 :=
  ⟨rfl, rfl, rfl, rfl, rfl⟩

theorem Nd_default : (default : Nd) = ⟨[], [], [], [], []⟩ := rfl

theorem valueAt_updNd_pres (t : Tree) (p : Path) (g : Nd → Nd)
    (hg : ∀ n, (g n).recs = n.recs) (q : Path) (e : Nat) :
    (t.updNd p g).valueAt q e = t.valueAt q e := by
  rw [Tree.valueAt, Tree.valueAt, ndAt_updNd]
  by_cases hc : t.validP p ∧ q = p
  · rw [if_pos hc, hg, hc.2]
  · rw [if_neg hc]

end PC

namespace PS4

/-! Attribution of emitted invocations to snapshot records. -/

theorem fireSig_log (dedup : Bool) (p : Path) (d : Nat) :
    ∀ (sl : List (Nat × SlotF)) (t : Tree4) (lg : Log) (inv : List Nat)
      (x : Option Nat × SlotF),
      x ∈ (fireSig dedup p d sl (t, lg, inv)).2.1 → x ∈ lg ∨ x.1 = some d := by
  intro sl
  induction sl with
  | nil =>
    intro t lg inv x hx
    exact Or.inl hx
  | cons a sl ih =>
    intro t lg inv x hx
    obtain ⟨k, f⟩ := a
    simp only [fireSig] at hx
    by_cases hc : dedup = true ∧ k ∈ inv
    · rw [if_pos hc] at hx
      exact ih t lg inv x hx
    · rw [if_neg hc] at hx
      simp only [invokeSlot] at hx
      rcases ih _ _ _ x hx with h2 | h2
      · rcases List.mem_append.mp h2 with h3 | h3
        · exact Or.inl h3
        · right
          rw [List.mem_singleton] at h3
          rw [h3]
      · exact Or.inr h2

theorem processRecord_log (dedup : Bool) (p : Path) (d : Nat) :
    ∀ (conns : List (Path × Nat)) (st : Tree4 × Log × List Nat)
      (x : Option Nat × SlotF),
      x ∈ (processRecord dedup p d conns st).2.1 → x ∈ st.2.1 ∨ x.1 = some d := by
  intro conns
  induction conns with
  | nil =>
    intro st x hx
    exact Or.inl hx
  | cons a r ih =>
    intro st x hx
    obtain ⟨t, lg, inv⟩ := st
    simp only [processRecord] at hx
    rcases ih _ x hx with h1 | h1
    · exact fireSig_log dedup p d _ t lg inv x h1
    · exact Or.inr h1

theorem processSnap_log (dedup : Bool) (p : Path) :
    ∀ (snap : List Nat) (st : Tree4 × Log × List Nat) (x : Option Nat × SlotF),
      x ∈ (processSnap dedup p snap st).2.1 →
        x ∈ st.2.1 ∨ ∃ d, d ∈ snap ∧ x.1 = some d := by
  intro snap
  induction snap with
  | nil =>
    intro st x hx
    exact Or.inl hx
  | cons d r ih =>
    intro st x hx
    obtain ⟨t, lg, inv⟩ := st
    simp only [processSnap] at hx
    rcases ih _ x hx with h1 | h1
    · rcases processRecord_log dedup p d _ _ x h1 with h2 | h2
      · exact Or.inl h2
      · exact Or.inr ⟨d, List.mem_cons_self d r, h2⟩
    · obtain ⟨d2, hd2, hx2⟩ := h1
      exact Or.inr ⟨d2, List.mem_cons_of_mem d hd2, hx2⟩

/-- Every invocation of a container's record pass is attributed either
to the log as it stood before the pass or to a descriptor that was in
`m_changedProperties` at the snapshot taken when the pass began — never
to a record dirtied while the pass runs. -/
theorem emitRecordsAt_log (dedup : Bool) (st : Tree4 × Log) (p : Path)
    (x : Option Nat × SlotF) (hx : x ∈ (emitRecordsAt dedup st p).2) :
    x ∈ st.2 ∨ ∃ d, d ∈ (st.1.ndAt p).dirtyL ∧ x.1 = some d := by
  obtain ⟨t, lg⟩ := st
  simp only [emitRecordsAt] at hx
  exact processSnap_log dedup p _ _ x hx

end PS4

/-- C7: registering the identical bound member-function identity three
times keeps one slot (its `std::type_index` key collides and
`try_emplace` keeps the first), and a deduplicated emit invokes it
once; functor registrations get fresh `m_index` keys, so three connects
keep three slots that all fire.  At the container level, three connects
of the same registration identity plus one value change and one emit
produce exactly one invocation. -/
theorem C7_observer_dedup (key tag tg1 tg2 tg3 : Nat) :
    (((SIG.Signal.empty.connectPMF key tag).connectPMF key tag).connectPMF key
      tag).slots = [(key, tag)] ∧
    ((((SIG.Signal.empty.connectPMF key tag).connectPMF key tag).connectPMF key
      tag).emitUnique []).1 = [tag] ∧
    (((SIG.Signal.empty.connectFunc tg1).connectFunc tg2).connectFunc tg3).slots =
      [(0, tg1), (1, tg2), (2, tg3)] ∧
    (((SIG.Signal.empty.connectFunc tg1).connectFunc tg2).connectFunc tg3).emitAll =
      [tg1, tg2, tg3] ∧
    ((lookupA ((((((PC.single.setProperty [] 0 0).connect [] 0 3 5).connect []
      0 3 5).connect [] 0 3 5).changeProperty [] 0 1).ndAt []).sigs
      0).getD []).length = 1 ∧
    (((((PC.single.setProperty [] 0 0).connect [] 0 3 5).connect [] 0 3
      5).connect [] 0 3 5).changeProperty [] 0 1).emitLog = [5] := by
  refine ⟨?_, ?_, ?_, ?_, ?_, ?_⟩
  · simp [SIG.Signal.empty, SIG.Signal.connectPMF, tryEmplace, lookupA]
  · simp [SIG.Signal.empty, SIG.Signal.connectPMF, SIG.Signal.emitUnique,
      SIG.emitUniqueGo, tryEmplace, lookupA]
  · simp [SIG.Signal.empty, SIG.Signal.connectFunc, tryEmplace, lookupA]
  · simp [SIG.Signal.empty, SIG.Signal.connectFunc, SIG.Signal.emitAll,
      tryEmplace, lookupA]
  · rfl
  · rfl

set_option maxHeartbeats 2000000 in
/-- C8: a record dirtied during an emit pass (here by an observer that
re-entrantly mutates another property) is not processed in the same
pass: the pass log shows only the snapshot record, the re-entrant
change stays queued, and its observer fires — with the stored value —
only on the next emit call.  The first conjunct is the general snapshot
property of a record pass. -/
theorem C8_mid_pass_deferral :
    (∀ (dedup : Bool) (st : PS4.Tree4 × PS4.Log) (p : Path)
      (x : Option Nat × PS4.SlotF),
      x ∈ (PS4.emitRecordsAt dedup st p).2 →
        x ∈ st.2 ∨ ∃ d, d ∈ (st.1.ndAt p).dirtyL ∧ x.1 = some d) ∧
    (PS4.c8tree.emit true).2 = [(some 0, .changeAct [] 1 (.i 5))] ∧
    (((PS4.c8tree.emit true).1.ndAt []).dirtyL = [1]) ∧
    (((PS4.c8tree.emit true).1.emit true).2 = [(some 1, .log 99)]) ∧
    (PS4.recVal ((PS4.c8tree.emit true).1.emit true).1 [] 1 = some (.i 5)) :=
  ⟨fun dedup st p x hx => PS4.emitRecordsAt_log dedup st p x hx,
   rfl, rfl, rfl, rfl⟩

theorem C8_mid_pass_deferral_witness :
    ((some 0 : Option Nat), PS4.SlotF.changeAct [] 1 (.i 5)) ∈ ([] : PS4.Log) ∨
    ∃ d, d ∈ ((PS4.c8tree : PS4.Tree4).ndAt []).dirtyL ∧
      (some 0 : Option Nat) = some d :=
  C8_mid_pass_deferral.1 true (PS4.c8tree, []) []
    (some 0, PS4.SlotF.changeAct [] 1 (.i 5)) (by decide)

set_option maxHeartbeats 4000000 in
/-- C9: the computed property over `X` (int, default `0`) and `Y`
(string, default `""`) with `f(x, y) = y + ": " + to_string(x)` reads
`f(0, "")` initially, `f(20, "")` after `setProperty(X, 20)` and one
emit, and `f(20, "n")` after additionally `setProperty(Y, "n")` and
another emit. -/
theorem C9_computed_property :
    PS4.c9t1.getProperty [] 2 (.s "") = PS4.fIS [.i 0, .s ""] ∧
    PS4.c9t2.getProperty [] 2 (.s "") = PS4.fIS [.i 20, .s ""] ∧
    PS4.c9t3.getProperty [] 2 (.s "") = PS4.fIS [.i 20, .s "n"] :=
  ⟨rfl, rfl, rfl⟩

/-- C10: `connect` succeeds with no owner anywhere — it stores the
signal per container and changes neither ownership nor the visibility
index nor any stored value — and once the descriptor is set on an
ancestor, the stored signal is collected, so the callback fires on the
first emit after the value changes. -/
theorem C10_connect_before_ownership (v : Int) (key tag : Nat) (hv : v ≠ 0) :
    (∀ (t : PC.Tree) (p : Path) (d k g : Nat), t.visAt p d = none →
      (∀ q e, (t.connect p d k g).owns q e = t.owns q e) ∧
      (∀ q e, (t.connect p d k g).visAt q e = t.visAt q e) ∧
      (∀ q e, (t.connect p d k g).valueAt q e = t.valueAt q e)) ∧
    (PC.chain2.connect [0] 0 key tag).hasProperty [0] 0 = false ∧
    ((PC.chain2.connect [0] 0 key tag).setProperty [] 0 v).emitLog = [tag] := by
  refine ⟨?_, ?_, ?_⟩
  · intro t p d k g hnone
    have hvisfield : ∀ n : PC.Nd,
        ((match lookupA n.sigs d with
          | some _ => n
          | none => { n with sigs := insertA n.sigs d [] } : PC.Nd)).vis = n.vis := by
      intro n
      cases lookupA n.sigs d <;> rfl
    have hrecfield : ∀ n : PC.Nd,
        ((match lookupA n.sigs d with
          | some _ => n
          | none => { n with sigs := insertA n.sigs d [] } : PC.Nd)).recs = n.recs := by
      intro n
      cases lookupA n.sigs d <;> rfl
    have h1 : (t.updNd p (fun n =>
        match lookupA n.sigs d with
        | some _ => n
        | none => { n with sigs := insertA n.sigs d [] })).visAt p d = none := by
      rw [PC.visAt_updNd_pres t p
        (fun n => match lookupA n.sigs d with
          | some _ => n
          | none => { n with sigs := insertA n.sigs d [] })
        (fun n => hvisfield n) p d]
      exact hnone
    refine ⟨?_, ?_, ?_⟩
    · intro q e
      rw [PC.Tree.connect]
      simp only [h1]
      rw [PC.owns_updNd_pres _ _
          (fun n => { n with
            sigs := insertA n.sigs d (tryEmplace ((lookupA n.sigs d).getD []) k g) })
          e (fun n => rfl) q,
        PC.owns_updNd_pres _ _
          (fun n => match lookupA n.sigs d with
            | some _ => n
            | none => { n with sigs := insertA n.sigs d [] })
          e (fun n => by
            show PC.ownsNd ((match lookupA n.sigs d with
              | some _ => n
              | none => { n with sigs := insertA n.sigs d [] } : PC.Nd)) e =
              PC.ownsNd n e
            rw [PC.ownsNd, PC.ownsNd, hrecfield n]) q]
    · intro q e
      rw [PC.Tree.connect]
      simp only [h1]
      rw [PC.visAt_updNd_pres _ _
          (fun n => { n with
            sigs := insertA n.sigs d (tryEmplace ((lookupA n.sigs d).getD []) k g) })
          (fun n => rfl) q e,
        PC.visAt_updNd_pres _ _
          (fun n => match lookupA n.sigs d with
            | some _ => n
            | none => { n with sigs := insertA n.sigs d [] })
          (fun n => hvisfield n) q e]
    · intro q e
      rw [PC.Tree.connect]
      simp only [h1]
      rw [PC.valueAt_updNd_pres _ _
          (fun n => { n with
            sigs := insertA n.sigs d (tryEmplace ((lookupA n.sigs d).getD []) k g) })
          (fun n => rfl) q e,
        PC.valueAt_updNd_pres _ _
          (fun n => match lookupA n.sigs d with
            | some _ => n
            | none => { n with sigs := insertA n.sigs d [] })
          (fun n => hrecfield n) q e]
  · rfl
  · simp [PC.chain2, PC.Nd_default, PC.Tree.setProperty, PC.Tree.connect, PC.Tree.emitLog,
      PC.nodePassLog, PC.dedupKeys, PC.slotsAt, PC.connOf, PC.preorder,
      PC.preorderF, PC.Tree.visAt, PC.Tree.owns, PC.ownsNd, PC.Tree.ndAt,
      PC.Tree.sub?, PC.Tree.validP, PC.Tree.updNd, PC.Forest.get?, PC.spcfp,
      PC.spcfpF, PC.setVisNd, PC.getAllSignals, PC.getAllSignalsF,
      PC.getOrConstructNd, PC.Tree.getOrConstructAt, PC.Tree.updateAllSignals,
      PC.Tree.getOwning, PC.setDirtyNd, PC.Tree.touchPropertyInternal,
      PC.Tree.changePropertyInternal, PC.parentOf, PC.Tree.parentSignalRefresh,
      PC.Tree.addSignal, PC.Tree.addSignals, PC.Tree.updAt.updKids, lookupA,
      insertA, eraseA, tryEmplace, PC.Tree.nd, PC.Tree.kids, hv]

theorem C10_connect_before_ownership_witness :
    (PC.chain2.connect [0] 0 3 42).hasProperty [0] 0 = false ∧
    ((PC.chain2.connect [0] 0 3 42).setProperty [] 0 5).emitLog = [42] :=
  ⟨(C10_connect_before_ownership 5 3 42 (by decide)).2.1,
   (C10_connect_before_ownership 5 3 42 (by decide)).2.2⟩

end CppProps
